import Mathlib

set_option maxHeartbeats 1000000
set_option linter.unusedVariables false

/-!
Verification development for the in-memory virtual filesystem of
`filesystems/memory.py` (`MemoryFS`).  The stored node tree, path
resolution, and every per-variant operation are embedded shallowly:
paths are segment lists, file contents are raw byte lists, and the
mutually recursive link dereferencing of the source is made total with
an explicit fuel parameter (`none` = the Python code would recurse
without bound at this input).  Facade-level pieces that live in
`filesystems/common.py` (mode parsing, realpath / symlink-loop
detection) are modelled from the specification and marked as such.
-/

namespace MemFS

/-- Path: the external path value type, modelled as its (absolute) list
of name segments.  The zero-segment list is the root path. -/
abbrev Path := List String

/-- Path.parent(): drop the last segment; the parent of the root is the
root itself. -/
def parentPath (p : Path) : Path := p.dropLast

/-- A stored node of the tree: the three variants a directory's child
mapping may actually contain (`_Directory`, `_File`, `_Link` in
memory.py).  Phantom variants are computed on lookup, never stored.
File contents are the raw bytes of the `_BytesIOIsTerrible` buffer;
a link stores its literal target path. -/
inductive SNode : Type where
  | dir (children : List (String × SNode))
  | file (contents : List Nat)
  | link (source : Path)

/-- Child lookup in a directory mapping (pyrsistent `pmap.get`): the
mapping is an association list with distinct keys, first match wins. -/
def lookupChild : List (String × SNode) → String → Option SNode
  | [], _ => none
  | (k, v) :: rest, n => if k = n then some v else lookupChild rest n

/-- `pmap.set`: insert or replace the binding for a name. -/
def setChild : List (String × SNode) → String → SNode → List (String × SNode)
  | [], n, v => [(n, v)]
  | (k, w) :: rest, n, v =>
      if k = n then (n, v) :: rest else (k, w) :: setChild rest n v

/-- `pmap.remove`: drop the binding for a name.  (pyrsistent raises
KeyError when the key is absent; the only operation that could reach
that corner is remove_empty_directory on the root, which no claim
touches, so absence is modelled as a no-op.) -/
def removeChild : List (String × SNode) → String → List (String × SNode)
  | [], _ => []
  | (k, w) :: rest, n =>
      if k = n then rest else (k, w) :: removeChild rest n

/-- The engine state (`_State`): the root directory's child mapping.
The root is a directory named "" that is its own parent. -/
structure State : Type where
  children : List (String × SNode)

/-- A storage location: the spine of directory-child steps from the
root to a stored slot, never crossing a link.  It plays the role of
the `_parent` object pointers of the Python nodes. -/
abbrev Loc := List String

/-- Pure structural lookup of the stored node at a location (no link
traversal at all). -/
def getNode : SNode → Loc → Option SNode
  | sn, [] => some sn
  | .dir ch, n :: rest =>
      match lookupChild ch n with
      | some sn => getNode sn rest
      | none => none
  | .file _, _ :: _ => none
  | .link _, _ :: _ => none

/-- The stored node at a location of the state (the root itself is the
directory node holding `st.children`). -/
def entryAt (st : State) (q : Loc) : Option SNode :=
  getNode (.dir st.children) q

/-- Rebind the slot at a (nonempty) location to a new stored node,
rebuilding only the directory spine above it — the structural-sharing
mutation `self._parent[self._name] = node`.  The final segment is
inserted-or-replaced; a broken spine (never produced by resolution)
leaves the tree unchanged. -/
def putNode : SNode → Loc → SNode → SNode
  | _, [], v => v
  | .dir ch, [n], v => .dir (setChild ch n v)
  | .dir ch, n :: rest, v =>
      match lookupChild ch n with
      | some sn => .dir (setChild ch n (putNode sn rest v))
      | none => .dir ch
  | s, _ :: _, _ => s

/-- State-level `putNode` (the root slot itself is never replaced). -/
def putLoc (st : State) (loc : Loc) (v : SNode) : State :=
  match putNode (.dir st.children) loc v with
  | .dir ch => ⟨ch⟩
  | _ => st

/-- Drop the stored slot at a (nonempty) location:
`del self._parent[self._name]`. -/
def eraseNode : SNode → Loc → SNode
  | s, [] => s
  | .dir ch, [n] => .dir (removeChild ch n)
  | .dir ch, n :: rest =>
      match lookupChild ch n with
      | some sn => .dir (setChild ch n (eraseNode sn rest))
      | none => .dir ch
  | s, _ :: _ => s

/-- State-level `eraseNode`. -/
def eraseLoc (st : State) (loc : Loc) : State :=
  match eraseNode (.dir st.children) loc with
  | .dir ch => ⟨ch⟩
  | _ => st

/-- A resolved node: the exact value `_State.__getitem__` hands to the
requested operation.  Real variants carry the storage location they
were found at (their object identity); a link also carries its stored
target; `dirChild` carries its would-be parent directory and name
(`_DirectoryChild(name, parent)`); `fileChild` carries the file's
parent (`_FileChild(parent)`); `noSuchEntry` carries nothing. -/
inductive Resolved : Type where
  | dir (loc : Loc)
  | file (loc : Loc)
  | link (loc : Loc) (source : Path)
  | dirChild (parentLoc : Loc) (name : String)
  | fileChild (parentLoc : Loc)
  | noSuchEntry
deriving DecidableEq

/-- View a stored node found at a location as a resolved node. -/
def liftStored (loc : Loc) : SNode → Resolved
  | .dir _ => .dir loc
  | .file _ => .file loc
  | .link src => .link loc src

/-- The root, resolved: the state's own `_root` directory. -/
def rootResolved : Resolved := .dir []

/-- The segment-by-segment walk of `_State.__getitem__` combined with
the per-variant `__getitem__` of each node kind:
directories look the child up in their mapping (a miss yields
`_DirectoryChild`); a file's child is `_FileChild(parent)`; a link
substitutes the entry at its source — a full re-resolution from the
root — before the walk continues (`_Link.__getitem__`); descent from
`dirChild` and `noSuchEntry` yields `noSuchEntry`, and a `fileChild`
yields itself.  Every step consumes one unit of fuel; a result of
`none` means the padding fuel ran out — in particular, if that happens
at every fuel, the Python original recurses without bound.  (A junk
branch a well-formed walk never reaches — a dangling location — also
gives `none`.) -/
def resolveGo : Nat → State → Resolved → Path → Option Resolved
  | _, _, r, [] => some r
  | 0, _, _, _ :: _ => none
  | f + 1, st, .link _ src, n :: rest =>
      match resolveGo f st rootResolved src with
      | none => none
      | some r2 => resolveGo f st r2 (n :: rest)
  | f + 1, st, .dir loc, n :: rest =>
      match entryAt st loc with
      | some (.dir ch) =>
          resolveGo f st
            (match lookupChild ch n with
             | some sn => liftStored (loc ++ [n]) sn
             | none => .dirChild loc n) rest
      | _ => none
  | f + 1, st, .file loc, _ :: rest =>
      resolveGo f st (.fileChild loc.dropLast) rest
  | f + 1, st, .dirChild _ _, _ :: rest =>
      resolveGo f st .noSuchEntry rest
  | f + 1, st, .fileChild p, _ :: rest =>
      resolveGo f st (.fileChild p) rest
  | f + 1, st, .noSuchEntry, _ :: rest =>
      resolveGo f st .noSuchEntry rest

/-- `_State.__getitem__`: resolve a path from the root. -/
def resolveN (fuel : Nat) (st : State) (p : Path) : Option Resolved :=
  resolveGo fuel st rootResolved p

/-- The closed error taxonomy of `filesystems.exceptions`, each bound
to a path (InvalidMode carries no path). -/
inductive Err : Type where
  | fileNotFound (p : Path)
  | fileExists (p : Path)
  | notADirectory (p : Path)
  | isADirectory (p : Path)
  | directoryNotEmpty (p : Path)
  | permissionError (p : Path)
  | notASymlink (p : Path)
  | symbolicLoop (p : Path)
  | invalidMode
deriving DecidableEq

/-- Open-mode activity: read, write or append. -/
inductive Activity : Type where
  | read
  | write
  | append
deriving DecidableEq

/-- The parsed `_FileMode`: an activity plus the text/binary flag
(`mode.read` / `mode.write` / `mode.text` in memory.py). -/
structure Mode : Type where
  activity : Activity
  text : Bool
deriving DecidableEq

/-- An open file handle, as the claims observe it: `reader` is the
fresh `_BytesIOIsTerrible` copy an `r`-open returns (it snapshots the
contents at open time); `writer` is the live buffer a `w`/`a`-open
returns, identified by the storage location it writes through to.  The
text flag records the `TextIOWrapper` wrapping. -/
inductive Handle : Type where
  | reader (contents : List Nat) (text : Bool)
  | writer (loc : Loc) (text : Bool)
deriving DecidableEq

/-- `_File.open_file`, given the file's location and stored contents:
read returns a fresh copy of the buffer; write replaces the buffer
with an empty one that is live; append replaces it with a live copy of
the old bytes (observably: contents preserved, writes extend). -/
def fileOpen (st : State) (loc : Loc) (contents : List Nat) (m : Mode) :
    Except Err Handle × State :=
  match m.activity with
  | .read => (.ok (.reader contents m.text), st)
  | .write => (.ok (.writer loc m.text), putLoc st loc (.file []))
  | .append => (.ok (.writer loc m.text), st)

/-- The per-variant `open_file` dispatch.  A link delegates to the
entry at its source (`_Link.open_file`), consuming fuel; a directory
raises IsADirectory; a `dirChild` creates the file first unless the
mode is read; `fileChild` raises NotADirectory and `noSuchEntry`
FileNotFound. -/
def openFileR : Nat → State → Resolved → Path → Mode →
    Option (Except Err Handle × State)
  | 0, _, .link _ _, _, _ => none
  | f + 1, st, .link _ src, p, m =>
      match resolveN f st src with
      | none => none
      | some r => openFileR f st r p m
  | _, st, .dir _, p, _ => some (.error (.isADirectory p), st)
  | _, st, .file loc, p, m =>
      match entryAt st loc with
      | some (.file c) => some (fileOpen st loc c m)
      | _ => none
  | _, st, .dirChild pL n, p, m =>
      match m.activity with
      | .read => some (.error (.fileNotFound p), st)
      | _ =>
          some (.ok (.writer (pL ++ [n]) m.text),
                putLoc st (pL ++ [n]) (.file []))
  | _, st, .fileChild _, p, _ => some (.error (.notADirectory p), st)
  | _, st, .noSuchEntry, p, _ => some (.error (.fileNotFound p), st)

/-- `_State.open_file` after mode parsing: resolve, then dispatch. -/
def stOpenFile (fuel : Nat) (st : State) (p : Path) (m : Mode) :
    Option (Except Err Handle × State) :=
  match resolveN fuel st p with
  | none => none
  | some r => openFileR fuel st r p m

/-- `_State.create_file`: resolve and dispatch `create_file`.  Real
variants raise FileExists; a `dirChild` creates an empty file and
opens it for writing (`_DirectoryChild.create_file`); `fileChild`
raises NotADirectory(path); `noSuchEntry` raises FileNotFound carrying
the full path (memory.py line 371 — not the parent). -/
def stCreateFile (fuel : Nat) (st : State) (p : Path) :
    Option (Except Err Handle × State) :=
  match resolveN fuel st p with
  | none => none
  | some (.dir _) => some (.error (.fileExists p), st)
  | some (.file _) => some (.error (.fileExists p), st)
  | some (.link _ _) => some (.error (.fileExists p), st)
  | some (.dirChild pL n) =>
      some (.ok (.writer (pL ++ [n]) true), putLoc st (pL ++ [n]) (.file []))
  | some (.fileChild _) => some (.error (.notADirectory p), st)
  | some .noSuchEntry => some (.error (.fileNotFound p), st)

/-- `_State.create_directory`: real variants raise FileExists; a
`dirChild` creates an empty directory; `fileChild` raises
NotADirectory(path.parent()); `noSuchEntry` FileNotFound(path.parent()). -/
def stCreateDir (fuel : Nat) (st : State) (p : Path) :
    Option (Except Err Unit × State) :=
  match resolveN fuel st p with
  | none => none
  | some (.dir _) => some (.error (.fileExists p), st)
  | some (.file _) => some (.error (.fileExists p), st)
  | some (.link _ _) => some (.error (.fileExists p), st)
  | some (.dirChild pL n) =>
      some (.ok (), putLoc st (pL ++ [n]) (.dir []))
  | some (.fileChild _) => some (.error (.notADirectory (parentPath p)), st)
  | some .noSuchEntry => some (.error (.fileNotFound (parentPath p)), st)

/-- Per-variant `list_directory`: a directory returns its child names;
a link delegates to its source entry; a file raises NotADirectory;
`dirChild`/`noSuchEntry` raise FileNotFound and `fileChild`
NotADirectory (memory.py line 132). -/
def listDirR : Nat → State → Resolved → Path →
    Option (Except Err (List String) × State)
  | 0, _, .link _ _, _ => none
  | f + 1, st, .link _ src, p =>
      match resolveN f st src with
      | none => none
      | some r => listDirR f st r p
  | _, st, .dir loc, p =>
      match entryAt st loc with
      | some (.dir ch) => some (.ok (ch.map (fun kv => kv.1)), st)
      | _ => none
  | _, st, .file _, p => some (.error (.notADirectory p), st)
  | _, st, .dirChild _ _, p => some (.error (.fileNotFound p), st)
  | _, st, .fileChild _, p => some (.error (.notADirectory p), st)
  | _, st, .noSuchEntry, p => some (.error (.fileNotFound p), st)

/-- `_State.list_directory`. -/
def stListDir (fuel : Nat) (st : State) (p : Path) :
    Option (Except Err (List String) × State) :=
  match resolveN fuel st p with
  | none => none
  | some r => listDirR fuel st r p

/-- `_State.remove_empty_directory`: a directory with children raises
DirectoryNotEmpty, an empty one is detached from its parent; a file or
link raises NotADirectory (links are never followed here); `dirChild`
and `noSuchEntry` raise FileNotFound, `fileChild` NotADirectory. -/
def stRemoveEmptyDir (fuel : Nat) (st : State) (p : Path) :
    Option (Except Err Unit × State) :=
  match resolveN fuel st p with
  | none => none
  | some (.dir loc) =>
      match entryAt st loc with
      | some (.dir ch) =>
          match ch with
          | [] => some (.ok (), eraseLoc st loc)
          | _ :: _ => some (.error (.directoryNotEmpty p), st)
      | _ => none
  | some (.file _) => some (.error (.notADirectory p), st)
  | some (.link _ _) => some (.error (.notADirectory p), st)
  | some (.dirChild _ _) => some (.error (.fileNotFound p), st)
  | some (.fileChild _) => some (.error (.notADirectory p), st)
  | some .noSuchEntry => some (.error (.fileNotFound p), st)

/-- `_State.remove_file`: a directory raises PermissionError; a file
or a link is detached from its parent (the link itself, never its
target); `dirChild`/`noSuchEntry` raise FileNotFound, `fileChild`
NotADirectory. -/
def stRemoveFile (fuel : Nat) (st : State) (p : Path) :
    Option (Except Err Unit × State) :=
  match resolveN fuel st p with
  | none => none
  | some (.dir _) => some (.error (.permissionError p), st)
  | some (.file loc) => some (.ok (), eraseLoc st loc)
  | some (.link loc _) => some (.ok (), eraseLoc st loc)
  | some (.dirChild _ _) => some (.error (.fileNotFound p), st)
  | some (.fileChild _) => some (.error (.notADirectory p), st)
  | some .noSuchEntry => some (.error (.fileNotFound p), st)

/-- `_State.link(source, to)`: real variants at `to` raise FileExists;
a `dirChild` stores a new link with the literal source path;
`fileChild` raises NotADirectory(to.parent()), `noSuchEntry`
FileNotFound(to.parent()). -/
def stLink (fuel : Nat) (st : State) (source dst : Path) :
    Option (Except Err Unit × State) :=
  match resolveN fuel st dst with
  | none => none
  | some (.dir _) => some (.error (.fileExists dst), st)
  | some (.file _) => some (.error (.fileExists dst), st)
  | some (.link _ _) => some (.error (.fileExists dst), st)
  | some (.dirChild pL n) =>
      some (.ok (), putLoc st (pL ++ [n]) (.link source))
  | some (.fileChild _) => some (.error (.notADirectory (parentPath dst)), st)
  | some .noSuchEntry => some (.error (.fileNotFound (parentPath dst)), st)

/-- `_State.readlink`: a link returns its immediately stored target —
never a further-resolved path; directory and file raise NotASymlink;
`dirChild`/`noSuchEntry` FileNotFound, `fileChild` NotADirectory. -/
def stReadlink (fuel : Nat) (st : State) (p : Path) :
    Option (Except Err Path × State) :=
  match resolveN fuel st p with
  | none => none
  | some (.dir _) => some (.error (.notASymlink p), st)
  | some (.file _) => some (.error (.notASymlink p), st)
  | some (.link _ src) => some (.ok src, st)
  | some (.dirChild _ _) => some (.error (.fileNotFound p), st)
  | some (.fileChild _) => some (.error (.notADirectory p), st)
  | some .noSuchEntry => some (.error (.fileNotFound p), st)

/-- Per-variant `exists`: real directory/file are true, a link
delegates to its source entry, phantoms are false. -/
def existsR : Nat → State → Resolved → Option Bool
  | 0, _, .link _ _ => none
  | f + 1, st, .link _ src =>
      match resolveN f st src with
      | none => none
      | some r => existsR f st r
  | _, _, .dir _ => some true
  | _, _, .file _ => some true
  | _, _, .dirChild _ _ => some false
  | _, _, .fileChild _ => some false
  | _, _, .noSuchEntry => some false

/-- `_State.exists`. -/
def stExists (fuel : Nat) (st : State) (p : Path) : Option Bool :=
  match resolveN fuel st p with
  | none => none
  | some r => existsR fuel st r

/-- Per-variant `is_link`: true exactly on a link (no delegation). -/
def isLinkR : Resolved → Bool
  | .link _ _ => true
  | _ => false

/-- UTF-8 encoding of one unicode scalar value, in divide/modulo form
(the text boundary of `TextIOWrapper`: representation governs
encode/decode only, the store stays raw bytes). -/
def utf8Char (c : Char) : List Nat :=
  let v := c.toNat
  if v < 128 then [v]
  else if v < 2048 then [192 + v / 64, 128 + v % 64]
  else if v < 65536 then
    [224 + v / 4096, 128 + v / 64 % 64, 128 + v % 64]
  else
    [240 + v / 262144, 128 + v / 4096 % 64, 128 + v / 64 % 64, 128 + v % 64]

/-- UTF-8 encoding of a string. -/
def utf8Encode (s : String) : List Nat :=
  (s.data.map utf8Char).flatten

/-- Decode one UTF-8 sequence from the front of a byte list, checking
shape and scalar-value validity, returning the scalar and the rest. -/
def utf8DecChar : List Nat → Option (Nat × List Nat)
  | [] => none
  | b0 :: rest =>
      if b0 < 128 then some (b0, rest)
      else if b0 < 192 then none
      else if b0 < 224 then
        match rest with
        | b1 :: rest1 =>
            if 128 ≤ b1 ∧ b1 < 192 then
              some ((b0 - 192) * 64 + (b1 - 128), rest1)
            else none
        | _ => none
      else if b0 < 240 then
        match rest with
        | b1 :: b2 :: rest2 =>
            if 128 ≤ b1 ∧ b1 < 192 ∧ 128 ≤ b2 ∧ b2 < 192 then
              some ((b0 - 224) * 4096 + (b1 - 128) * 64 + (b2 - 128), rest2)
            else none
        | _ => none
      else if b0 < 248 then
        match rest with
        | b1 :: b2 :: b3 :: rest3 =>
            if 128 ≤ b1 ∧ b1 < 192 ∧ 128 ≤ b2 ∧ b2 < 192 ∧
               128 ≤ b3 ∧ b3 < 192 then
              some ((b0 - 240) * 262144 + (b1 - 128) * 4096 +
                    (b2 - 128) * 64 + (b3 - 128), rest3)
            else none
        | _ => none
      else none

/-- Decode a byte list to unicode scalar values (fuelled by the list
length: each step consumes at least one byte). -/
def utf8DecGo : Nat → List Nat → Option (List Nat)
  | _, [] => some []
  | 0, _ :: _ => none
  | f + 1, bs =>
      match utf8DecChar bs with
      | none => none
      | some (v, rest) =>
          if Nat.isValidChar v then
            match utf8DecGo f rest with
            | none => none
            | some vs => some (v :: vs)
          else none

/-- Decode a byte list to a string (none on invalid UTF-8). -/
def utf8Decode (bs : List Nat) : Option String :=
  match utf8DecGo bs.length bs with
  | none => none
  | some vs => some ⟨vs.map Char.ofNat⟩

/-- A payload handed to `write` or produced by `read`: bytes in binary
mode, a string in text mode. -/
inductive Payload : Type where
  | bytes (b : List Nat)
  | text (s : String)
deriving DecidableEq

/-- The raw bytes a payload contributes to the content buffer. -/
def payloadBytes : Payload → List Nat
  | .bytes b => b
  | .text s => utf8Encode s

/-- One `write` on an open handle: a writer appends the (possibly
text-encoded) bytes at the end of the live buffer; a binary handle
takes bytes and a text handle takes a string (anything else is a
caller type error, not filesystem behaviour); a reader rejects
writes. -/
def hWrite (st : State) (h : Handle) (x : Payload) : Option State :=
  match h, x with
  | .writer loc false, .bytes b =>
      match entryAt st loc with
      | some (.file c) => some (putLoc st loc (.file (c ++ b)))
      | _ => none
  | .writer loc true, .text s =>
      match entryAt st loc with
      | some (.file c) => some (putLoc st loc (.file (c ++ utf8Encode s)))
      | _ => none
  | _, _ => none

/-- One `read()` on an open read handle: the snapshot taken at open
time, decoded when the handle is textual. -/
def hRead : Handle → Option Payload
  | .reader c false => some (.bytes c)
  | .reader c true =>
      match utf8Decode c with
      | none => none
      | some s => some (.text s)
  | .writer _ _ => none

/-- Composite `open(p, mode); write(x); close()` as one state step:
exactly how the round-trip and append claims exercise the engine. -/
def writeVia (fuel : Nat) (st : State) (p : Path) (m : Mode) (x : Payload) :
    Option (Except Err State) :=
  match stOpenFile fuel st p m with
  | none => none
  | some (.error e, _) => some (.error e)
  | some (.ok h, st1) =>
      match hWrite st1 h x with
      | none => none
      | some st2 => some (.ok st2)

/-- Composite `open(p, r-mode); read()`. -/
def readVia (fuel : Nat) (st : State) (p : Path) (textMode : Bool) :
    Option (Except Err Payload) :=
  match stOpenFile fuel st p ⟨.read, textMode⟩ with
  | none => none
  | some (.error e, _) => some (.error e)
  | some (.ok h, _) =>
      match hRead h with
      | none => none
      | some x => some (.ok x)

/-- Modelled from the spec: `_parse_mode` of `filesystems/common.py`
is not under src/.  Spec §6: one activity letter of r, w, a (r when
omitted), optionally combined with exactly one of b, t (text when
omitted); any other combination is InvalidMode. -/
def parseMode (m : String) : Except Err Mode :=
  let act : Char → Option Activity := fun c =>
    if c = 'r' then some .read
    else if c = 'w' then some .write
    else if c = 'a' then some .append
    else none
  match m.data with
  | [] => .ok ⟨.read, true⟩
  | [c] =>
      match act c with
      | some a => .ok ⟨a, true⟩
      | none => .error .invalidMode
  | [c, r] =>
      match act c with
      | some a =>
          if r = 'b' then .ok ⟨a, false⟩
          else if r = 't' then .ok ⟨a, true⟩
          else .error .invalidMode
      | none => .error .invalidMode
  | _ => .error .invalidMode

/-- `_State.open_file` as called with a raw mode string: the mode is
parsed (InvalidMode before any tree access), then dispatched. -/
def stOpenFileStr (fuel : Nat) (st : State) (p : Path) (m : String) :
    Option (Except Err Handle × State) :=
  match parseMode m with
  | .error e => some (.error e, st)
  | .ok mode => stOpenFile fuel st p mode

/-- Modelled from the spec: the maximum link-substitution count of the
facade realpath.  Spec §9 allows loop bounding by "a fixed maximum hop
count", failing SymbolicLoop deterministically. -/
def maxHops : Nat := 64

/-- Modelled from the spec: one segment step of the facade `realpath`
(`filesystems/common.py` is not under src/).  While the entry at the
path built so far is a link, substitute the stored target (targets are
modelled as absolute paths, which is how every claim uses them); after
the hop bound is exceeded, fail SymbolicLoop.  A non-link (including a
non-existent) entry is kept verbatim, per spec §4.4. -/
def chaseLinks (st : State) (hops : Nat) (cur : Path) : Except Err Path :=
  match hops with
  | 0 => .error (.symbolicLoop cur)
  | h + 1 =>
      match resolveN maxHops st cur with
      | some (.link _ src) => chaseLinks st h src
      | some _ => .ok cur
      | none => .error (.symbolicLoop cur)

/-- Modelled from the spec: the facade `realpath` — resolve every link
along the path, segment by segment from the root, preserving
non-existent leaf components verbatim (spec §4.4). -/
def fsRealpath (st : State) (p : Path) : Except Err Path :=
  p.foldlM (fun real seg => chaseLinks st maxHops (real ++ [seg])) []

/-- Modelled from the spec: the facade `open` — canonicalise the path
(detecting symbolic loops) and delegate to the engine's open_file, so
that "every dereferencing operation fails SymbolicLoop" on a loop
(spec §8; the bound is enforced at the calling facade, as §1 allows). -/
def fsOpen (st : State) (p : Path) (m : Mode) :
    Option (Except Err Handle × State) :=
  match fsRealpath st p with
  | .error e => some (.error e, st)
  | .ok rp => stOpenFile maxHops st rp m

/-- Modelled from the spec: the facade `create` (create_file), through
realpath like `open`. -/
def fsCreate (st : State) (p : Path) :
    Option (Except Err Handle × State) :=
  match fsRealpath st p with
  | .error e => some (.error e, st)
  | .ok rp => stCreateFile maxHops st rp

mutual

/-- Well-formed child mappings: pyrsistent maps cannot bind a key
twice, so a mapping reachable from real engine states has distinct
keys, recursively. -/
def wfL : List (String × SNode) → Bool
  | [] => true
  | (k, v) :: rest =>
      (lookupChild rest k).isNone && wfN v && wfL rest

/-- Node form of `wfL`. -/
def wfN : SNode → Bool
  | .dir ch => wfL ch
  | .file _ => true
  | .link _ => true

end

mutual

/-- Does a stored node contain no symbolic link anywhere? -/
def linkFreeN : SNode → Bool
  | .dir ch => linkFreeL ch
  | .file _ => true
  | .link _ => false

/-- List form of `linkFreeN` over a child mapping. -/
def linkFreeL : List (String × SNode) → Bool
  | [] => true
  | (_, v) :: rest => linkFreeN v && linkFreeL rest

end

theorem lookupChild_setChild (ch : List (String × SNode)) (n m : String)
    (v : SNode) :
    lookupChild (setChild ch n v) m =
      if n = m then some v else lookupChild ch m := by
  induction ch with
  | nil =>
      by_cases h : n = m <;> simp [setChild, lookupChild, h]
  | cons kv rest ih =>
      obtain ⟨k, w⟩ := kv
      simp only [setChild]
      by_cases hk : k = n
      · subst hk
        simp only [if_pos rfl, lookupChild]
        by_cases h : k = m <;> simp [h]
      · simp only [if_neg hk, lookupChild]
        by_cases hkm : k = m
        · subst hkm
          have h2 : ¬ n = k := fun hn => hk hn.symm
          simp [h2]
        · simp [hkm, ih]

theorem lookupChild_removeChild (ch : List (String × SNode)) (n m : String)
    (hw : wfL ch = true) :
    lookupChild (removeChild ch n) m =
      if n = m then none else lookupChild ch m := by
  induction ch with
  | nil => by_cases h : n = m <;> simp [removeChild, lookupChild, h]
  | cons kv rest ih =>
      obtain ⟨k, w⟩ := kv
      simp only [wfL, Bool.and_eq_true] at hw
      obtain ⟨⟨hnone, _⟩, hrest⟩ := hw
      simp only [removeChild]
      by_cases hk : k = n
      · subst hk
        simp only [if_pos rfl]
        by_cases h : k = m
        · subst h
          simp only [if_pos rfl]
          exact Option.isNone_iff_eq_none.mp hnone
        · have h2 : ¬ k = m := h
          simp [lookupChild, h2, fun hn : k = m => h hn]
      · simp only [if_neg hk, lookupChild]
        by_cases hkm : k = m
        · subst hkm
          have h2 : ¬ n = k := fun hn => hk hn.symm
          simp [h2]
        · simp [hkm, ih hrest]

theorem wfN_of_lookupChild {ch : List (String × SNode)} {n : String}
    {sn : SNode} (hw : wfL ch = true) (h : lookupChild ch n = some sn) :
    wfN sn = true := by
  induction ch with
  | nil => simp [lookupChild] at h
  | cons kv rest ih =>
      obtain ⟨k, w⟩ := kv
      simp only [wfL, Bool.and_eq_true] at hw
      obtain ⟨⟨_, hv⟩, hrest⟩ := hw
      simp only [lookupChild] at h
      by_cases hk : k = n
      · simp only [if_pos hk] at h
        exact Option.some.inj h ▸ hv
      · simp only [if_neg hk] at h
        exact ih hrest h

theorem linkFreeN_of_lookupChild {ch : List (String × SNode)} {n : String}
    {sn : SNode} (hw : linkFreeL ch = true)
    (h : lookupChild ch n = some sn) : linkFreeN sn = true := by
  induction ch with
  | nil => simp [lookupChild] at h
  | cons kv rest ih =>
      obtain ⟨k, w⟩ := kv
      simp only [linkFreeL, Bool.and_eq_true] at hw
      obtain ⟨hv, hrest⟩ := hw
      simp only [lookupChild] at h
      by_cases hk : k = n
      · simp only [if_pos hk] at h
        exact Option.some.inj h ▸ hv
      · simp only [if_neg hk] at h
        exact ih hrest h

theorem getNode_append_single (s : SNode) (q : Loc) (n : String) :
    getNode s (q ++ [n]) =
      match getNode s q with
      | some (.dir ch) => lookupChild ch n
      | _ => none := by
  induction q generalizing s with
  | nil =>
      cases s with
      | dir ch =>
          simp only [List.nil_append, getNode]
          cases h : lookupChild ch n with
          | none => rfl
          | some sn => cases sn <;> rfl
      | file c => rfl
      | link src => rfl
  | cons m rest ih =>
      cases s with
      | dir ch =>
          simp only [List.cons_append, getNode]
          cases lookupChild ch m with
          | none => rfl
          | some sn => exact ih sn
      | file c => rfl
      | link src => rfl

/-- The entry at one more segment, in terms of the parent entry. -/
theorem entryAt_append_single (st : State) (q : Loc) (n : String) :
    entryAt st (q ++ [n]) =
      match entryAt st q with
      | some (.dir ch) => lookupChild ch n
      | _ => none :=
  getNode_append_single _ q n

/-- Which resolved values are honest about the state: a real variant's
location actually stores a node of that kind (and a link's recorded
source is the stored one); a `dirChild`'s parent location stores a
directory. -/
def validR (st : State) : Resolved → Prop
  | .dir loc => ∃ ch, entryAt st loc = some (.dir ch)
  | .file loc => ∃ c, entryAt st loc = some (.file c)
  | .link loc src => entryAt st loc = some (.link src)
  | .dirChild pL _ => ∃ ch, entryAt st pL = some (.dir ch)
  | .fileChild _ => True
  | .noSuchEntry => True

theorem validR_root (st : State) : validR st rootResolved :=
  ⟨st.children, rfl⟩

theorem validR_liftStored {st : State} {loc : Loc} {sn : SNode}
    (h : entryAt st loc = some sn) : validR st (liftStored loc sn) := by
  cases sn with
  | dir ch => exact ⟨ch, h⟩
  | file c => exact ⟨c, h⟩
  | link src => exact h

/-- Resolution soundness: a resolved value is honest about the state
it was resolved in. -/
theorem validR_resolveGo {st : State} :
    ∀ (f : Nat) (r : Resolved) (p : Path) (v : Resolved),
      validR st r → resolveGo f st r p = some v → validR st v := by
  intro f
  induction f with
  | zero =>
      intro r p v hr h
      cases p with
      | nil =>
          simp only [resolveGo, Option.some.injEq] at h
          exact h ▸ hr
      | cons n rest => cases r <;> simp [resolveGo] at h
  | succ g ih =>
      intro r p v hr h
      cases p with
      | nil =>
          simp only [resolveGo, Option.some.injEq] at h
          exact h ▸ hr
      | cons n rest =>
          cases r with
          | link loc src =>
              simp only [resolveGo] at h
              cases hsrc : resolveGo g st rootResolved src with
              | none => rw [hsrc] at h; exact absurd h (by simp)
              | some r2 =>
                  rw [hsrc] at h
                  exact ih r2 (n :: rest) v
                    (ih rootResolved src r2 (validR_root st) hsrc) h
          | dir loc =>
              simp only [resolveGo] at h
              cases hloc : entryAt st loc with
              | none => rw [hloc] at h; exact absurd h (by simp)
              | some sn =>
                  cases sn with
                  | dir ch =>
                      rw [hloc] at h
                      simp only at h
                      cases hlk : lookupChild ch n with
                      | none =>
                          rw [hlk] at h
                          exact ih (.dirChild loc n) rest v ⟨ch, hloc⟩ h
                      | some sn2 =>
                          rw [hlk] at h
                          refine ih _ rest v (validR_liftStored ?_) h
                          rw [entryAt_append_single, hloc]
                          exact hlk
                  | file c => rw [hloc] at h; exact absurd h (by simp)
                  | link src => rw [hloc] at h; exact absurd h (by simp)
          | file loc =>
              simp only [resolveGo] at h
              exact ih (.fileChild loc.dropLast) rest v trivial h
          | dirChild pL nm =>
              simp only [resolveGo] at h
              exact ih .noSuchEntry rest v trivial h
          | fileChild pL =>
              simp only [resolveGo] at h
              exact ih (.fileChild pL) rest v trivial h
          | noSuchEntry =>
              simp only [resolveGo] at h
              exact ih .noSuchEntry rest v trivial h

/-- Fuel monotonicity of resolution: a result obtained with some fuel
is stable under any larger fuel, so the fuel is a pure padding
artifact of the embedding and the resolved value is deterministic. -/
theorem resolveGo_mono {st : State} :
    ∀ (f g : Nat) (r : Resolved) (p : Path) (v : Resolved), f ≤ g →
      resolveGo f st r p = some v → resolveGo g st r p = some v := by
  intro f
  induction f with
  | zero =>
      intro g r p v hle h
      cases p with
      | nil => simpa [resolveGo] using h
      | cons n rest => cases r <;> simp [resolveGo] at h
  | succ f0 ih =>
      intro g r p v hle h
      cases p with
      | nil => simpa [resolveGo] using h
      | cons n rest =>
          obtain ⟨g0, rfl⟩ : ∃ g0, g = g0 + 1 :=
            ⟨g - 1, by omega⟩
          have hle0 : f0 ≤ g0 := by omega
          cases r with
          | link loc src =>
              simp only [resolveGo] at h ⊢
              cases hsrc : resolveGo f0 st rootResolved src with
              | none => rw [hsrc] at h; exact absurd h (by simp)
              | some r2 =>
                  rw [hsrc] at h
                  rw [ih g0 rootResolved src r2 hle0 hsrc]
                  exact ih g0 r2 (n :: rest) v hle0 h
          | dir loc =>
              simp only [resolveGo] at h ⊢
              cases hloc : entryAt st loc with
              | none => rw [hloc] at h; exact absurd h (by simp)
              | some sn =>
                  cases sn with
                  | dir ch =>
                      rw [hloc] at h
                      exact ih g0 _ rest v hle0 h
                  | file c => rw [hloc] at h; exact absurd h (by simp)
                  | link src => rw [hloc] at h; exact absurd h (by simp)
          | file loc =>
              simp only [resolveGo] at h ⊢
              exact ih g0 _ rest v hle0 h
          | dirChild pL nm =>
              simp only [resolveGo] at h ⊢
              exact ih g0 _ rest v hle0 h
          | fileChild pL =>
              simp only [resolveGo] at h ⊢
              exact ih g0 _ rest v hle0 h
          | noSuchEntry =>
              simp only [resolveGo] at h ⊢
              exact ih g0 _ rest v hle0 h

/-- `resolveN` form of fuel monotonicity. -/
theorem resolveN_mono {st : State} {f g : Nat} {p : Path} {v : Resolved}
    (hle : f ≤ g) (h : resolveN f st p = some v) :
    resolveN g st p = some v :=
  resolveGo_mono f g rootResolved p v hle h

theorem getNode_putNode_self :
    ∀ (loc : Loc) (s v w : SNode), getNode s loc = some w →
      getNode (putNode s loc v) loc = some v := by
  intro loc
  induction loc with
  | nil => intro s v w h; cases s <;> simp [putNode, getNode]
  | cons n rest ih =>
      intro s v w h
      cases s with
      | dir ch =>
          simp only [getNode] at h
          cases hlk : lookupChild ch n with
          | none => rw [hlk] at h; exact absurd h (by simp)
          | some sn =>
              rw [hlk] at h
              cases rest with
              | nil =>
                  simp [putNode, getNode, lookupChild_setChild]
              | cons r rs =>
                  simp only [putNode, hlk]
                  simp only [getNode, lookupChild_setChild, if_pos rfl]
                  exact ih sn v w h
      | file c => simp [getNode] at h
      | link src => simp [getNode] at h

/-- State-level form: rebinding an existing slot makes the entry at
that slot the new node. -/
theorem entryAt_putLoc_self {st : State} {loc : Loc} {v w : SNode}
    (h : entryAt st loc = some w) (hne : loc ≠ []) :
    entryAt (putLoc st loc v) loc = some v := by
  cases loc with
  | nil => exact absurd rfl hne
  | cons n rest =>
      have hput := getNode_putNode_self (n :: rest) (.dir st.children) v w h
      unfold putLoc
      cases hpn : putNode (.dir st.children) (n :: rest) v with
      | dir ch2 => rw [hpn] at hput; exact hput
      | file c =>
          cases rest with
          | nil => simp [putNode] at hpn
          | cons r rs =>
              simp only [putNode] at hpn
              cases hlk2 : lookupChild st.children n <;>
                rw [hlk2] at hpn <;> simp at hpn
      | link s =>
          cases rest with
          | nil => simp [putNode] at hpn
          | cons r rs =>
              simp only [putNode] at hpn
              cases hlk2 : lookupChild st.children n <;>
                rw [hlk2] at hpn <;> simp at hpn

/-- The shape of a stored node: its kind, plus the stored target for a
link — everything resolution can observe about it short of recursing
into children or contents. -/
inductive NShape : Type where
  | dirS
  | fileS
  | linkS (src : Path)
deriving DecidableEq

/-- Shape projection of a stored node. -/
def nshape : SNode → NShape
  | .dir _ => .dirS
  | .file _ => .fileS
  | .link src => .linkS src

/-- The shape of the entry at a location. -/
def shapeAt (st : State) (q : Loc) : Option NShape :=
  (entryAt st q).map nshape

/-- Two states of identical shape everywhere: they differ at most in
file contents. -/
def ShapeEq (s1 s2 : State) : Prop :=
  ∀ q : Loc, shapeAt s1 q = shapeAt s2 q

theorem liftStored_eq_of_nshape {loc : Loc} {sn sn2 : SNode}
    (h : nshape sn = nshape sn2) :
    liftStored loc sn = liftStored loc sn2 := by
  cases sn <;> cases sn2 <;> simp [nshape] at h <;> simp [liftStored, h]

/-- Replacing the contents of a stored file preserves every shape. -/
theorem nshape_getNode_putNode_file :
    ∀ (loc : Loc) (s : SNode) (c0 c : List Nat),
      getNode s loc = some (.file c0) → ∀ q : Loc,
      (getNode (putNode s loc (.file c)) q).map nshape =
        (getNode s q).map nshape := by
  intro loc
  induction loc with
  | nil =>
      intro s c0 c h q
      have hs : s = .file c0 := by
        simpa [getNode] using h
      subst hs
      cases q with
      | nil => rfl
      | cons m qr => rfl
  | cons n rest ih =>
      intro s c0 c h q
      cases s with
      | dir ch =>
          simp only [getNode] at h
          cases hlk : lookupChild ch n with
          | none => rw [hlk] at h; exact absurd h (by simp)
          | some sn =>
              rw [hlk] at h
              cases rest with
              | nil =>
                  have hsn : sn = .file c0 := by
                    simpa [getNode] using h
                  subst hsn
                  simp only [putNode]
                  cases q with
                  | nil => rfl
                  | cons m qr =>
                      simp only [getNode, lookupChild_setChild]
                      by_cases hm : n = m
                      · subst hm
                        simp only [if_pos rfl, hlk]
                        cases qr <;> rfl
                      · simp only [if_neg hm]
              | cons r rs =>
                  simp only [putNode, hlk]
                  cases q with
                  | nil => rfl
                  | cons m qr =>
                      simp only [getNode, lookupChild_setChild]
                      by_cases hm : n = m
                      · subst hm
                        simp only [if_pos rfl, hlk]
                        exact ih sn c0 c h qr
                      · simp only [if_neg hm]
      | file cc => simp [getNode] at h
      | link src => simp [getNode] at h

/-- State-level: replacing a file's contents is a shape-preserving
mutation. -/
theorem shapeEq_putLoc_file {st : State} {loc : Loc} {c0 c : List Nat}
    (h : entryAt st loc = some (.file c0)) :
    ShapeEq st (putLoc st loc (.file c)) := by
  intro q
  have hq := nshape_getNode_putNode_file loc (.dir st.children) c0 c h q
  cases loc with
  | nil => simp [entryAt, getNode] at h
  | cons n rest =>
      unfold putLoc
      cases hpn : putNode (.dir st.children) (n :: rest) (.file c) with
      | dir ch2 =>
          rw [hpn] at hq
          exact hq.symm
      | file cc =>
          cases rest with
          | nil => simp [putNode] at hpn
          | cons r rs =>
              simp only [putNode] at hpn
              cases hlk2 : lookupChild st.children n <;>
                rw [hlk2] at hpn <;> simp at hpn
      | link s =>
          cases rest with
          | nil => simp [putNode] at hpn
          | cons r rs =>
              simp only [putNode] at hpn
              cases hlk2 : lookupChild st.children n <;>
                rw [hlk2] at hpn <;> simp at hpn

theorem entry_of_shape_dir {st : State} {q : Loc}
    (h : shapeAt st q = some .dirS) :
    ∃ ch, entryAt st q = some (.dir ch) := by
  cases he : entryAt st q with
  | none => rw [shapeAt, he] at h; exact absurd h (by simp)
  | some sn =>
      cases sn with
      | dir ch => exact ⟨ch, rfl⟩
      | file c => rw [shapeAt, he] at h; simp [nshape] at h
      | link s => rw [shapeAt, he] at h; simp [nshape] at h

/-- Resolution only looks at shapes: shape-equal states resolve every
path from every resolved value identically. -/
theorem resolveGo_shapeEq {st st2 : State} (hse : ShapeEq st st2) :
    ∀ (f : Nat) (r : Resolved) (p : Path),
      resolveGo f st r p = resolveGo f st2 r p := by
  intro f
  induction f with
  | zero =>
      intro r p
      cases p with
      | nil => simp [resolveGo]
      | cons n rest => cases r <;> simp [resolveGo]
  | succ g ih =>
      intro r p
      cases p with
      | nil => simp [resolveGo]
      | cons n rest =>
          cases r with
          | link loc src =>
              simp only [resolveGo]
              rw [ih rootResolved src]
              cases resolveGo g st2 rootResolved src with
              | none => rfl
              | some r2 => exact ih r2 (n :: rest)
          | dir loc =>
              simp only [resolveGo]
              have hq := hse loc
              have hqn := hse (loc ++ [n])
              cases hloc : entryAt st loc with
              | none =>
                  have h2 : entryAt st2 loc = none := by
                    rw [shapeAt, shapeAt, hloc] at hq
                    cases he2 : entryAt st2 loc with
                    | none => rfl
                    | some sn => rw [he2] at hq; simp at hq
                  rw [h2]
              | some sn =>
                  cases sn with
                  | dir ch =>
                      have hsh2 : shapeAt st2 loc = some .dirS := by
                        rw [← hse loc]
                        unfold shapeAt
                        rw [hloc]
                        rfl
                      obtain ⟨ch2, h2⟩ := entry_of_shape_dir hsh2
                      rw [h2]
                      simp only
                      have hqn2 : (lookupChild ch n).map nshape =
                          (lookupChild ch2 n).map nshape := by
                        have h3 := hse (loc ++ [n])
                        unfold shapeAt at h3
                        rw [entryAt_append_single, hloc] at h3
                        rw [entryAt_append_single, h2] at h3
                        simpa using h3
                      cases hlk : lookupChild ch n with
                      | none =>
                          rw [hlk] at hqn2
                          cases hlk2 : lookupChild ch2 n with
                          | none => exact ih _ rest
                          | some sn2 =>
                              rw [hlk2] at hqn2
                              simp at hqn2
                      | some sn =>
                          rw [hlk] at hqn2
                          cases hlk2 : lookupChild ch2 n with
                          | none => rw [hlk2] at hqn2; simp at hqn2
                          | some sn2 =>
                              rw [hlk2] at hqn2
                              simp at hqn2
                              show resolveGo g st (liftStored (loc ++ [n]) sn)
                                  rest =
                                resolveGo g st2 (liftStored (loc ++ [n]) sn2)
                                  rest
                              rw [liftStored_eq_of_nshape hqn2]
                              exact ih _ rest
                  | file c =>
                      have hsh2 := hse loc
                      unfold shapeAt at hsh2
                      rw [hloc] at hsh2
                      cases he2 : entryAt st2 loc with
                      | none => rw [he2] at hsh2
                      | some sn2 =>
                          rw [he2] at hsh2
                          cases sn2 with
                          | dir ch2 => simp [nshape] at hsh2
                          | file c2 => rfl
                          | link s2 => simp [nshape] at hsh2
                  | link src =>
                      have hsh2 := hse loc
                      unfold shapeAt at hsh2
                      rw [hloc] at hsh2
                      cases he2 : entryAt st2 loc with
                      | none => rw [he2] at hsh2
                      | some sn2 =>
                          rw [he2] at hsh2
                          cases sn2 with
                          | dir ch2 => simp [nshape] at hsh2
                          | file c2 => simp [nshape] at hsh2
                          | link s2 => rfl
          | file loc =>
              simp only [resolveGo]
              exact ih _ rest
          | dirChild pL nm =>
              simp only [resolveGo]
              exact ih _ rest
          | fileChild pL =>
              simp only [resolveGo]
              exact ih _ rest
          | noSuchEntry =>
              simp only [resolveGo]
              exact ih _ rest

/-- Descent from `noSuchEntry` stays `noSuchEntry` at any depth. -/
theorem resolveGo_noSuchEntry {st : State} :
    ∀ (p : Path) (f : Nat), p.length ≤ f →
      resolveGo f st .noSuchEntry p = some .noSuchEntry := by
  intro p
  induction p with
  | nil => intro f hf; simp [resolveGo]
  | cons n rest ih =>
      intro f hf
      obtain ⟨f0, rfl⟩ : ∃ f0, f = f0 + 1 :=
        ⟨f - 1, by simp at hf; omega⟩
      simp only [resolveGo]
      exact ih f0 (by simp at hf; omega)

/-- Descent from a `fileChild` stays that same `fileChild` at any
depth. -/
theorem resolveGo_fileChild {st : State} (pL : Loc) :
    ∀ (p : Path) (f : Nat), p.length ≤ f →
      resolveGo f st (.fileChild pL) p = some (.fileChild pL) := by
  intro p
  induction p with
  | nil => intro f hf; simp [resolveGo]
  | cons n rest ih =>
      intro f hf
      obtain ⟨f0, rfl⟩ : ∃ f0, f = f0 + 1 :=
        ⟨f - 1, by simp at hf; omega⟩
      simp only [resolveGo]
      exact ih f0 (by simp at hf; omega)

/-- Descent from a `dirChild` yields `noSuchEntry` at any depth. -/
theorem resolveGo_dirChild {st : State} (pL : Loc) (nm : String) :
    ∀ (p : Path) (f : Nat), p ≠ [] → p.length ≤ f →
      resolveGo f st (.dirChild pL nm) p = some .noSuchEntry := by
  intro p
  cases p with
  | nil => intro f h; exact absurd rfl h
  | cons n rest =>
      intro f _ hf
      obtain ⟨f0, rfl⟩ : ∃ f0, f = f0 + 1 :=
        ⟨f - 1, by simp at hf; omega⟩
      simp only [resolveGo]
      exact resolveGo_noSuchEntry rest f0 (by simp at hf; omega)

/-- The link-free walk: the resolution walk restricted to pure
directory descent, refusing to touch a link anywhere (`none` if one is
encountered).  Where it succeeds it needs no fuel and no link
substitution, so it is insensitive to changes behind links. -/
def plainGo : SNode → Loc → Path → Option Resolved
  | .dir _, loc, [] => some (.dir loc)
  | .file _, loc, [] => some (.file loc)
  | .link _, _, [] => none
  | .dir ch, loc, n :: rest =>
      match lookupChild ch n with
      | some sn => plainGo sn (loc ++ [n]) rest
      | none =>
          match rest with
          | [] => some (.dirChild loc n)
          | _ :: _ => some .noSuchEntry
  | .file _, loc, _ :: _ => some (.fileChild loc.dropLast)
  | .link _, _, _ :: _ => none

/-- State-level link-free resolution. -/
def plainResolve (st : State) (p : Path) : Option Resolved :=
  plainGo (.dir st.children) [] p

/-- Wherever the link-free walk succeeds, the real resolver agrees
with it (with any fuel covering the path length). -/
theorem resolveGo_of_plainGo {st : State} :
    ∀ (p : Path) (sn : SNode) (loc : Loc) (r : Resolved) (f : Nat),
      entryAt st loc = some sn → plainGo sn loc p = some r →
      p.length ≤ f → resolveGo f st (liftStored loc sn) p = some r := by
  intro p
  induction p with
  | nil =>
      intro sn loc r f hloc hp hf
      cases sn with
      | dir ch => simpa [plainGo, liftStored, resolveGo] using hp
      | file c => simpa [plainGo, liftStored, resolveGo] using hp
      | link src => simp [plainGo] at hp
  | cons n rest ih =>
      intro sn loc r f hloc hp hf
      obtain ⟨f0, rfl⟩ : ∃ f0, f = f0 + 1 :=
        ⟨f - 1, by simp at hf; omega⟩
      have hf0 : rest.length ≤ f0 := by simp at hf; omega
      cases sn with
      | dir ch =>
          simp only [plainGo] at hp
          simp only [liftStored, resolveGo, hloc]
          cases hlk : lookupChild ch n with
          | some sn2 =>
              rw [hlk] at hp
              have hloc2 : entryAt st (loc ++ [n]) = some sn2 := by
                rw [entryAt_append_single, hloc]
                exact hlk
              exact ih sn2 (loc ++ [n]) r f0 hloc2 hp hf0
          | none =>
              rw [hlk] at hp
              cases rest with
              | nil =>
                  simp only [Option.some.injEq] at hp
                  rw [← hp]
                  simp [resolveGo]
              | cons m rs =>
                  simp only [Option.some.injEq] at hp
                  rw [← hp]
                  exact resolveGo_dirChild loc n (m :: rs) f0
                    (by simp) hf0
      | file c =>
          simp only [plainGo, Option.some.injEq] at hp
          simp only [liftStored, resolveGo]
          rw [← hp]
          exact resolveGo_fileChild loc.dropLast rest f0 hf0
      | link src => simp [plainGo] at hp

/-- `plainResolve` agrees with `resolveN`. -/
theorem resolveN_of_plainResolve {st : State} {p : Path} {r : Resolved}
    {f : Nat} (hp : plainResolve st p = some r) (hf : p.length ≤ f) :
    resolveN f st p = some r :=
  resolveGo_of_plainGo p (.dir st.children) [] r f rfl hp hf

/-- A link-free walk that ends at a creatable slot names exactly the
walked path: parent location plus name is the path itself. -/
theorem plainGo_dirChild_loc :
    ∀ (p : Path) (sn : SNode) (loc : Loc) (L : Loc) (n : String),
      plainGo sn loc p = some (.dirChild L n) →
      p ≠ [] ∧ L ++ [n] = loc ++ p := by
  intro p
  induction p with
  | nil =>
      intro sn loc L n hp
      cases sn <;> simp [plainGo] at hp
  | cons m rest ih =>
      intro sn loc L n hp
      cases sn with
      | dir ch =>
          simp only [plainGo] at hp
          cases hlk : lookupChild ch m with
          | some sn2 =>
              rw [hlk] at hp
              obtain ⟨_, h2⟩ := ih sn2 (loc ++ [m]) L n hp
              refine ⟨by simp, ?_⟩
              rw [h2]
              simp
          | none =>
              rw [hlk] at hp
              cases rest with
              | nil =>
                  simp only [Option.some.injEq, Resolved.dirChild.injEq] at hp
                  obtain ⟨rfl, rfl⟩ := hp
                  exact ⟨by simp, rfl⟩
              | cons r rs => simp at hp
      | file c => simp [plainGo] at hp
      | link src => simp [plainGo] at hp

/-- Rebinding the slot at the walked path (creation of a new entry or
replacement of a file) makes the link-free walk find the new file
there. -/
theorem plainGo_putNode_file :
    ∀ (p : Path) (sn : SNode) (loc : Loc) (bs : List Nat),
      ((∃ L n, plainGo sn loc p = some (.dirChild L n)) ∨
        (∃ l, plainGo sn loc p = some (.file l))) →
      plainGo (putNode sn p (.file bs)) loc p = some (.file (loc ++ p)) := by
  intro p
  induction p with
  | nil =>
      intro sn loc bs hp
      rcases hp with ⟨L, n, hp⟩ | ⟨l, hp⟩
      · cases sn <;> simp [plainGo] at hp
      · cases sn with
        | dir ch => simp [plainGo] at hp
        | file c => simp [putNode, plainGo]
        | link src => simp [plainGo] at hp
  | cons m rest ih =>
      intro sn loc bs hp
      have hdir : ∃ ch, sn = .dir ch := by
        rcases hp with ⟨L, n, hp⟩ | ⟨l, hp⟩ <;> cases sn <;>
          first
            | exact ⟨_, rfl⟩
            | simp [plainGo] at hp
      obtain ⟨ch, rfl⟩ := hdir
      cases hlk : lookupChild ch m with
      | some sn2 =>
          have hp2 : (∃ L n, plainGo sn2 (loc ++ [m]) rest =
                some (.dirChild L n)) ∨
              (∃ l, plainGo sn2 (loc ++ [m]) rest = some (.file l)) := by
            rcases hp with ⟨L, n, hp⟩ | ⟨l, hp⟩
            · simp only [plainGo, hlk] at hp
              exact .inl ⟨L, n, hp⟩
            · simp only [plainGo, hlk] at hp
              exact .inr ⟨l, hp⟩
          cases rest with
          | nil =>
              rcases hp2 with ⟨L, n, hp2⟩ | ⟨l, hp2⟩
              · cases sn2 <;> simp [plainGo] at hp2
              · have hsn2 : ∃ c2, sn2 = .file c2 := by
                  cases sn2 <;> first
                    | exact ⟨_, rfl⟩
                    | simp [plainGo] at hp2
                obtain ⟨c2, rfl⟩ := hsn2
                simp [putNode, plainGo, lookupChild_setChild]
          | cons r rs =>
              simp only [putNode, hlk]
              simp only [plainGo, lookupChild_setChild, if_pos rfl]
              have := ih sn2 (loc ++ [m]) bs hp2
              simpa using this
      | none =>
          rcases hp with ⟨L, n, hp⟩ | ⟨l, hp⟩
          · simp only [plainGo, hlk] at hp
            cases rest with
            | nil =>
                simp [putNode, plainGo, lookupChild_setChild]
            | cons r rs => simp at hp
          · simp only [plainGo, hlk] at hp
            cases rest with
            | nil => simp at hp
            | cons r rs => simp at hp

/-- Inserting a child under an existing directory makes the entry at
the extended location the new node. -/
theorem getNode_putNode_insert :
    ∀ (L : Loc) (s : SNode) (ch : List (String × SNode)) (n : String)
      (v : SNode), getNode s L = some (.dir ch) →
      getNode (putNode s (L ++ [n]) v) (L ++ [n]) = some v := by
  intro L
  induction L with
  | nil =>
      intro s ch n v h
      have hs : s = .dir ch := by simpa [getNode] using h
      subst hs
      simp [putNode, getNode, lookupChild_setChild]
  | cons m rest ih =>
      intro s ch n v h
      cases s with
      | dir ch0 =>
          simp only [getNode] at h
          cases hlk : lookupChild ch0 m with
          | none => rw [hlk] at h; exact absurd h (by simp)
          | some s2 =>
              rw [hlk] at h
              cases rest with
              | nil =>
                  simp only [List.cons_append, List.nil_append, putNode, hlk]
                  simp only [getNode, lookupChild_setChild, if_pos rfl]
                  exact ih s2 ch n v h
              | cons r rs =>
                  simp only [List.cons_append, putNode, hlk]
                  simp only [getNode, lookupChild_setChild, if_pos rfl]
                  exact ih s2 ch n v h
      | file c => simp [getNode] at h
      | link src => simp [getNode] at h

/-- State-level insert form. -/
theorem entryAt_putLoc_insert {st : State} {L : Loc}
    {ch : List (String × SNode)} {n : String} {v : SNode}
    (h : entryAt st L = some (.dir ch)) :
    entryAt (putLoc st (L ++ [n]) v) (L ++ [n]) = some v := by
  have hput := getNode_putNode_insert L (.dir st.children) ch n v h
  unfold putLoc
  cases hpn : putNode (.dir st.children) (L ++ [n]) v with
  | dir ch2 => rw [hpn] at hput; exact hput
  | file c =>
      cases hL : L ++ [n] with
      | nil => exact absurd hL (by simp)
      | cons q qs =>
          rw [hL] at hpn
          cases qs with
          | nil => simp [putNode] at hpn
          | cons q2 qs2 =>
              simp only [putNode] at hpn
              cases hlk2 : lookupChild st.children q <;>
                rw [hlk2] at hpn <;> simp at hpn
  | link s =>
      cases hL : L ++ [n] with
      | nil => exact absurd hL (by simp)
      | cons q qs =>
          rw [hL] at hpn
          cases qs with
          | nil => simp [putNode] at hpn
          | cons q2 qs2 =>
              simp only [putNode] at hpn
              cases hlk2 : lookupChild st.children q <;>
                rw [hlk2] at hpn <;> simp at hpn

/-- State-level: the link-free walk after rebinding the walked path to
a file. -/
theorem plainResolve_putLoc_file {st : State} {p : Path} {bs : List Nat}
    (hne : p ≠ [])
    (hp : (∃ L n, plainResolve st p = some (.dirChild L n)) ∨
      (∃ l, plainResolve st p = some (.file l))) :
    plainResolve (putLoc st p (.file bs)) p = some (.file p) := by
  have hmain := plainGo_putNode_file p (.dir st.children) [] bs hp
  unfold putLoc
  cases hpn : putNode (.dir st.children) p (.file bs) with
  | dir ch2 =>
      rw [hpn] at hmain
      simpa [plainResolve] using hmain
  | file c =>
      cases hL : p with
      | nil => exact absurd hL hne
      | cons q qs =>
          rw [hL] at hpn
          cases qs with
          | nil => simp [putNode] at hpn
          | cons q2 qs2 =>
              simp only [putNode] at hpn
              cases hlk2 : lookupChild st.children q <;>
                rw [hlk2] at hpn <;> simp at hpn
  | link s =>
      cases hL : p with
      | nil => exact absurd hL hne
      | cons q qs =>
          rw [hL] at hpn
          cases qs with
          | nil => simp [putNode] at hpn
          | cons q2 qs2 =>
              simp only [putNode] at hpn
              cases hlk2 : lookupChild st.children q <;>
                rw [hlk2] at hpn <;> simp at hpn

theorem utf8DecChar_utf8Char (c : Char) (rest : List Nat) :
    utf8DecChar (utf8Char c ++ rest) = some (c.toNat, rest) := by
  have hvalid : c.toNat < 55296 ∨ (57343 < c.toNat ∧ c.toNat < 1114112) :=
    c.valid
  unfold utf8Char
  by_cases h1 : c.toNat < 128
  · simp only [if_pos h1, List.cons_append, List.nil_append]
    unfold utf8DecChar
    simp [h1]
  · by_cases h2 : c.toNat < 2048
    · simp only [if_neg h1, if_pos h2, List.cons_append, List.nil_append]
      unfold utf8DecChar
      have d1 : ¬ 192 + c.toNat / 64 < 128 := by omega
      have d2 : ¬ 192 + c.toNat / 64 < 192 := by omega
      have d3 : 192 + c.toNat / 64 < 224 := by omega
      have d4 : 128 ≤ 128 + c.toNat % 64 ∧ 128 + c.toNat % 64 < 192 := by
        omega
      simp only [if_neg d1, if_neg d2, if_pos d3, if_pos d4]
      have : (192 + c.toNat / 64 - 192) * 64 + (128 + c.toNat % 64 - 128) =
          c.toNat := by omega
      rw [this]
    · by_cases h3 : c.toNat < 65536
      · simp only [if_neg h1, if_neg h2, if_pos h3, List.cons_append,
          List.nil_append]
        unfold utf8DecChar
        have d1 : ¬ 224 + c.toNat / 4096 < 128 := by omega
        have d2 : ¬ 224 + c.toNat / 4096 < 192 := by omega
        have d3 : ¬ 224 + c.toNat / 4096 < 224 := by omega
        have d4 : 224 + c.toNat / 4096 < 240 := by omega
        have d5 : 128 ≤ 128 + c.toNat / 64 % 64 ∧
            128 + c.toNat / 64 % 64 < 192 ∧
            128 ≤ 128 + c.toNat % 64 ∧ 128 + c.toNat % 64 < 192 := by
          omega
        simp only [if_neg d1, if_neg d2, if_neg d3, if_pos d4, if_pos d5]
        have : (224 + c.toNat / 4096 - 224) * 4096 +
            (128 + c.toNat / 64 % 64 - 128) * 64 +
            (128 + c.toNat % 64 - 128) = c.toNat := by omega
        rw [this]
      · simp only [if_neg h1, if_neg h2, if_neg h3, List.cons_append,
          List.nil_append]
        unfold utf8DecChar
        have hub : c.toNat < 1114112 := by omega
        have d1 : ¬ 240 + c.toNat / 262144 < 128 := by omega
        have d2 : ¬ 240 + c.toNat / 262144 < 192 := by omega
        have d3 : ¬ 240 + c.toNat / 262144 < 224 := by omega
        have d4 : ¬ 240 + c.toNat / 262144 < 240 := by omega
        have d5 : 240 + c.toNat / 262144 < 248 := by omega
        have d6 : 128 ≤ 128 + c.toNat / 4096 % 64 ∧
            128 + c.toNat / 4096 % 64 < 192 ∧
            128 ≤ 128 + c.toNat / 64 % 64 ∧
            128 + c.toNat / 64 % 64 < 192 ∧
            128 ≤ 128 + c.toNat % 64 ∧ 128 + c.toNat % 64 < 192 := by
          omega
        simp only [if_neg d1, if_neg d2, if_neg d3, if_neg d4, if_pos d5,
          if_pos d6]
        have : (240 + c.toNat / 262144 - 240) * 262144 +
            (128 + c.toNat / 4096 % 64 - 128) * 4096 +
            (128 + c.toNat / 64 % 64 - 128) * 64 +
            (128 + c.toNat % 64 - 128) = c.toNat := by omega
        rw [this]

theorem utf8DecGo_mono :
    ∀ (f g : Nat) (bs : List Nat) (vs : List Nat), f ≤ g →
      utf8DecGo f bs = some vs → utf8DecGo g bs = some vs := by
  intro f
  induction f with
  | zero =>
      intro g bs vs hle h
      cases bs with
      | nil => simpa [utf8DecGo] using h
      | cons b rest => simp [utf8DecGo] at h
  | succ f0 ih =>
      intro g bs vs hle h
      cases bs with
      | nil => simpa [utf8DecGo] using h
      | cons b rest =>
          obtain ⟨g0, rfl⟩ : ∃ g0, g = g0 + 1 := ⟨g - 1, by omega⟩
          simp only [utf8DecGo] at h ⊢
          cases hd : utf8DecChar (b :: rest) with
          | none => rw [hd] at h; exact absurd h (by simp)
          | some pair =>
              rw [hd] at h
              obtain ⟨v, bs2⟩ := pair
              simp only at h ⊢
              by_cases hv : Nat.isValidChar v
              · rw [if_pos hv] at h ⊢
                cases h2 : utf8DecGo f0 bs2 with
                | none => rw [h2] at h; exact absurd h (by simp)
                | some vs2 =>
                    rw [h2] at h
                    rw [ih g0 bs2 vs2 (by omega) h2]
                    exact h
              · rw [if_neg hv] at h
                exact absurd h (by simp)

theorem utf8Char_ne_nil (c : Char) : utf8Char c ≠ [] := by
  simp only [utf8Char]
  split_ifs <;> simp

theorem utf8DecGo_utf8Encode :
    ∀ (cs : List Char) (f : Nat),
      ((cs.map utf8Char).flatten).length ≤ f →
      utf8DecGo f ((cs.map utf8Char).flatten) =
        some (cs.map Char.toNat) := by
  intro cs
  induction cs with
  | nil => intro f hf; simp [utf8DecGo]
  | cons c rest ih =>
      intro f hf
      simp only [List.map_cons, List.flatten_cons] at hf ⊢
      have hc1 : 1 ≤ (utf8Char c).length := by
        cases hcc : utf8Char c with
        | nil => exact absurd hcc (utf8Char_ne_nil c)
        | cons b bs => simp
      have hlap : (utf8Char c ++ (rest.map utf8Char).flatten).length =
          (utf8Char c).length + ((rest.map utf8Char).flatten).length := by
        simp
      obtain ⟨f0, rfl⟩ : ∃ f0, f = f0 + 1 := ⟨f - 1, by omega⟩
      have hfr : ((rest.map utf8Char).flatten).length ≤ f0 := by omega
      have hstep := utf8DecChar_utf8Char c ((rest.map utf8Char).flatten)
      have hvc : Nat.isValidChar c.toNat := by
        have h := c.valid
        unfold UInt32.isValidChar at h
        exact h
      cases hcc : utf8Char c with
      | nil => exact absurd hcc (utf8Char_ne_nil c)
      | cons b bs =>
          rw [hcc] at hstep
          rw [List.cons_append] at hstep
          rw [List.cons_append]
          simp only [utf8DecGo]
          rw [hstep]
          simp [hvc, ih f0 hfr]

/-- The text boundary is lossless: decoding the UTF-8 encoding of any
string (multi-byte characters included) yields the string back. -/
theorem utf8Decode_utf8Encode (s : String) :
    utf8Decode (utf8Encode s) = some s := by
  unfold utf8Decode utf8Encode
  rw [utf8DecGo_utf8Encode s.data _ (le_refl _)]
  have hmap : (s.data.map Char.toNat).map Char.ofNat = s.data := by
    rw [List.map_map]
    have h1 : s.data.map (Char.ofNat ∘ Char.toNat) = s.data.map id :=
      List.map_congr_left (fun c _ => Char.ofNat_toNat c)
    rw [h1, List.map_id]
  show some (⟨(s.data.map Char.toNat).map Char.ofNat⟩ : String) = some s
  rw [hmap]

/-- Does a payload match the representation flag of a mode (bytes for
binary, a string for text)?  Writing anything else through a handle is
a caller-side type error, outside filesystem behaviour. -/
def fitsB : Payload → Bool → Bool
  | .bytes _, false => true
  | .text _, true => true
  | _, _ => false

/-- A read handle over a payload's raw bytes hands the payload back:
in binary mode trivially, in text mode through the lossless UTF-8
boundary. -/
theorem hRead_reader_fits {x : Payload} {rep : Bool}
    (hfit : fitsB x rep = true) :
    hRead (.reader (payloadBytes x) rep) = some x := by
  cases x with
  | bytes b => cases rep with
      | false => rfl
      | true => simp [fitsB] at hfit
  | text s =>
      cases rep with
      | false => simp [fitsB] at hfit
      | true =>
          simp only [hRead, payloadBytes]
          rw [utf8Decode_utf8Encode]

/-- Writing a fitting payload through a live write handle appends its
bytes at the end of the buffer. -/
theorem hWrite_writer {st : State} {loc : Loc} {c : List Nat}
    {x : Payload} {rep : Bool} (hfit : fitsB x rep = true)
    (hloc : entryAt st loc = some (.file c)) :
    hWrite st (.writer loc rep) x =
      some (putLoc st loc (.file (c ++ payloadBytes x))) := by
  cases x with
  | bytes b =>
      cases rep with
      | false => simp [hWrite, hloc, payloadBytes]
      | true => simp [fitsB] at hfit
  | text s =>
      cases rep with
      | false => simp [fitsB] at hfit
      | true => simp [hWrite, hloc, payloadBytes]

/-- `openFileR` at a resolved file ignores the fuel. -/
theorem openFileR_file_fuel {st : State} (f : Nat) (loc : Loc) (p : Path)
    (m : Mode) :
    openFileR f st (.file loc) p m = openFileR 0 st (.file loc) p m := by
  cases f <;> rfl

/-- Fuel monotonicity of the open dispatch. -/
theorem openFileR_mono {st : State} :
    ∀ (f g : Nat) (r : Resolved) (p : Path) (m : Mode) (out),
      f ≤ g → openFileR f st r p m = some out →
      openFileR g st r p m = some out := by
  intro f
  induction f with
  | zero =>
      intro g r p m out hle h
      cases r with
      | link loc src => simp [openFileR] at h
      | dir loc => cases g <;> exact h
      | file loc => rw [openFileR_file_fuel]; exact h
      | dirChild pL n => cases g <;> exact h
      | fileChild pL => cases g <;> exact h
      | noSuchEntry => cases g <;> exact h
  | succ f0 ih =>
      intro g r p m out hle h
      cases r with
      | link loc src =>
          obtain ⟨g0, rfl⟩ : ∃ g0, g = g0 + 1 := ⟨g - 1, by omega⟩
          simp only [openFileR] at h ⊢
          cases hsrc : resolveN f0 st src with
          | none => rw [hsrc] at h; exact absurd h (by simp)
          | some r2 =>
              rw [hsrc] at h
              rw [resolveN_mono (by omega : f0 ≤ g0) hsrc]
              exact ih g0 r2 p m out (by omega) h
      | dir loc => cases g <;> exact h
      | file loc =>
          rw [openFileR_file_fuel] at h
          rw [openFileR_file_fuel]
          exact h
      | dirChild pL n => cases g <;> exact h
      | fileChild pL => cases g <;> exact h
      | noSuchEntry => cases g <;> exact h

/-- Resolving a single-segment path from the root, when the root
directory binds it. -/
theorem resolveN_single {st : State} {n : String} {sn : SNode} (f : Nat)
    (h : lookupChild st.children n = some sn) :
    resolveN (f + 1) st [n] = some (liftStored [n] sn) := by
  show resolveGo (f + 1) st rootResolved [n] = some (liftStored [n] sn)
  simp only [resolveGo, rootResolved]
  have hentry : entryAt st [] = some (.dir st.children) := rfl
  rw [hentry]
  simp only [h]
  cases sn <;> simp [liftStored, resolveGo, List.nil_append]

/-- The children of a cyclic link chain: each name is bound to a link
whose stored target is the next name, the last pointing back at the
first. -/
def cycleChildren : List String → String → List (String × SNode)
  | [], _ => []
  | [n], first => [(n, .link [first])]
  | n :: m :: rest, first => (n, .link [m]) :: cycleChildren (m :: rest) first

/-- A state whose root holds exactly one self- or mutually-referential
link chain over the given names. -/
def cycleState (names : List String) : State :=
  ⟨cycleChildren names (names.headD "")⟩

theorem cycleChildren_lookup :
    ∀ (names : List String) (first n : String), n ∈ names →
      ∃ m, lookupChild (cycleChildren names first) n = some (.link [m]) ∧
        (m ∈ names ∨ m = first) := by
  intro names
  induction names with
  | nil => intro first n h; simp at h
  | cons a rest ih =>
      intro first n h
      cases rest with
      | nil =>
          simp only [List.mem_singleton] at h
          subst h
          exact ⟨first, by simp [cycleChildren, lookupChild], .inr rfl⟩
      | cons b rest2 =>
          by_cases ha : a = n
          · subst ha
            exact ⟨b, by simp [cycleChildren, lookupChild], .inl (by simp)⟩
          · have hn : n ∈ b :: rest2 := by
              cases h with
              | head => exact absurd rfl ha
              | tail _ h2 => exact h2
            obtain ⟨m, hm, hmem⟩ := ih first n hn
            refine ⟨m, ?_, ?_⟩
            · simp only [cycleChildren, lookupChild, if_neg ha]
              exact hm
            · cases hmem with
              | inl h2 => exact .inl (List.mem_cons_of_mem a h2)
              | inr h2 => exact .inr h2

/-- Chasing links inside a cyclic chain never escapes it: every hop
lands on another chain member, so the hop bound runs out and the
facade fails SymbolicLoop. -/
theorem chaseLinks_cycle {names : List String} (hne : names ≠ []) :
    ∀ (hops : Nat) (n : String), n ∈ names →
      ∃ q, chaseLinks (cycleState names) hops [n] =
        .error (.symbolicLoop q) := by
  intro hops
  induction hops with
  | zero => intro n hn; exact ⟨[n], rfl⟩
  | succ h ih =>
      intro n hn
      obtain ⟨m, hm, hmem⟩ :=
        cycleChildren_lookup names (names.headD "") n hn
      have hmm : m ∈ names := by
        cases hmem with
        | inl h2 => exact h2
        | inr h2 =>
            subst h2
            cases names with
            | nil => exact absurd rfl hne
            | cons a rest => exact List.mem_cons_self a rest
      have hres : resolveN maxHops (cycleState names) [n] =
          some (.link [n] [m]) := by
        have : maxHops = 63 + 1 := rfl
        rw [this]
        exact resolveN_single 63 hm
      simp only [chaseLinks, hres]
      exact ih m hmm

/-- The children of an acyclic link chain ending at a file: each chain
name is bound to a link targeting the next, the last targeting the
file name. -/
def chainChildren : List String → String → List (String × SNode)
  | [], _ => []
  | [n], tgt => [(n, .link [tgt])]
  | n :: m :: rest, tgt => (n, .link [m]) :: chainChildren (m :: rest) tgt

/-- The state holding a file and a chain of links leading to it. -/
def chainState (links : List String) (fname : String) (c : List Nat) :
    State :=
  ⟨(fname, .file c) :: chainChildren links fname⟩

theorem chainChildren_lookup :
    ∀ (links : List String) (tgt n : String) (rest2 : List String),
      (n :: rest2) <:+ links → links.Nodup →
      lookupChild (chainChildren links tgt) n =
        some (.link [rest2.headD tgt]) := by
  intro links
  induction links with
  | nil =>
      intro tgt n rest2 hs hnd
      have := hs.length_le
      simp at this
  | cons a rest ih =>
      intro tgt n rest2 hs hnd
      rcases List.suffix_cons_iff.mp hs with heq | htail
      · obtain ⟨rfl, rfl⟩ : n = a ∧ rest2 = rest := by
          injection heq with h1 h2
          exact ⟨h1, h2⟩
        cases rest2 with
        | nil => simp [chainChildren, lookupChild]
        | cons b rest3 => simp [chainChildren, lookupChild]
      · have hna : a ≠ n := by
          intro h
          subst h
          have hmem : a ∈ rest := htail.subset (by simp)
          exact (List.nodup_cons.mp hnd).1 hmem
        have hndr : rest.Nodup := (List.nodup_cons.mp hnd).2
        cases rest with
        | nil =>
            have := htail.length_le
            simp at this
        | cons b rest3 =>
            simp only [chainChildren, lookupChild, if_neg hna]
            exact ih tgt n rest2 htail hndr

theorem chainState_lookup_file (links : List String) (fname : String)
    (c : List Nat) :
    lookupChild (chainState links fname c).children fname =
      some (.file c) := by
  simp [chainState, lookupChild]

theorem chainState_lookup_link {links : List String} {fname n : String}
    {rest2 : List String} (c : List Nat) (hs : (n :: rest2) <:+ links)
    (hnd : (fname :: links).Nodup) :
    lookupChild (chainState links fname c).children n =
      some (.link [rest2.headD fname]) := by
  have hfn : fname ≠ n := by
    intro h
    subst h
    exact (List.nodup_cons.mp hnd).1 (hs.subset (by simp))
  simp only [chainState, lookupChild, if_neg hfn]
  exact chainChildren_lookup links fname n rest2 hs
    (List.nodup_cons.mp hnd).2

/-- Opening through any tail of the link chain lands, with enough
fuel, exactly where opening the final file itself lands. -/
theorem chain_deref {links : List String} {fname : String} {c : List Nat}
    (hnd : (fname :: links).Nodup) :
    ∀ (sfx : List String), sfx <:+ links →
      ∃ f : Nat, ∀ (g : Nat), f ≤ g → ∀ (loc : Loc) (p : Path) (m : Mode),
        openFileR (g + 1) (chainState links fname c)
            (.link loc [sfx.headD fname]) p m =
          openFileR 0 (chainState links fname c) (.file [fname]) p m := by
  intro sfx
  induction sfx with
  | nil =>
      intro hs
      refine ⟨1, ?_⟩
      intro g hg loc p m
      obtain ⟨g0, rfl⟩ : ∃ g0, g = g0 + 1 := ⟨g - 1, by omega⟩
      have hres : resolveN (g0 + 1) (chainState links fname c) [fname] =
          some (.file [fname]) := by
        have := resolveN_single g0 (chainState_lookup_file links fname c)
        simpa [liftStored] using this
      simp only [List.headD, openFileR, hres]
  | cons n rest ih =>
      intro hs
      have hrest : rest <:+ links :=
        (List.suffix_cons n rest).trans hs
      obtain ⟨f0, hf0⟩ := ih hrest
      refine ⟨f0 + 1, ?_⟩
      intro g hg loc p m
      obtain ⟨g0, rfl⟩ : ∃ g0, g = g0 + 1 := ⟨g - 1, by omega⟩
      have hres : resolveN (g0 + 1) (chainState links fname c) [n] =
          some (.link [n] [rest.headD fname]) := by
        have := resolveN_single g0 (chainState_lookup_link c hs hnd)
        simpa [liftStored] using this
      simp only [List.headD, openFileR, hres]
      exact hf0 g0 (by omega) [n] p m

/-- An erroring open dispatch leaves the state exactly as it was. -/
theorem openFileR_error {st : State} :
    ∀ (f : Nat) (r : Resolved) (p : Path) (m : Mode) (e : Err)
      (st2 : State), openFileR f st r p m = some (.error e, st2) →
      st2 = st := by
  intro f
  induction f with
  | zero =>
      intro r p m e st2 h
      obtain ⟨act, tx⟩ := m
      cases r with
      | link loc src => simp [openFileR] at h
      | dir loc =>
          simp only [openFileR, Prod.mk.injEq, Option.some.injEq] at h
          exact h.2.symm ▸ rfl
      | file loc =>
          simp only [openFileR] at h
          cases he : entryAt st loc with
          | none => rw [he] at h; exact absurd h (by simp)
          | some sn =>
              cases sn with
              | dir ch => rw [he] at h; exact absurd h (by simp)
              | file cc =>
                  rw [he] at h
                  simp only [fileOpen] at h
                  cases act <;> simp at h
              | link s => rw [he] at h; exact absurd h (by simp)
      | dirChild pL n =>
          simp only [openFileR] at h
          cases act with
          | read =>
              simp only [Prod.mk.injEq, Option.some.injEq] at h
              exact h.2.symm ▸ rfl
          | write => simp at h
          | append => simp at h
      | fileChild pL =>
          simp only [openFileR, Prod.mk.injEq, Option.some.injEq] at h
          exact h.2.symm ▸ rfl
      | noSuchEntry =>
          simp only [openFileR, Prod.mk.injEq, Option.some.injEq] at h
          exact h.2.symm ▸ rfl
  | succ f0 ih =>
      intro r p m e st2 h
      obtain ⟨act, tx⟩ := m
      cases r with
      | link loc src =>
          simp only [openFileR] at h
          cases hsrc : resolveN f0 st src with
          | none => rw [hsrc] at h; exact absurd h (by simp)
          | some r2 =>
              rw [hsrc] at h
              exact ih r2 p ⟨act, tx⟩ e st2 h
      | dir loc =>
          simp only [openFileR, Prod.mk.injEq, Option.some.injEq] at h
          exact h.2.symm ▸ rfl
      | file loc =>
          simp only [openFileR] at h
          cases he : entryAt st loc with
          | none => rw [he] at h; exact absurd h (by simp)
          | some sn =>
              cases sn with
              | dir ch => rw [he] at h; exact absurd h (by simp)
              | file cc =>
                  rw [he] at h
                  simp only [fileOpen] at h
                  cases act <;> simp at h
              | link s => rw [he] at h; exact absurd h (by simp)
      | dirChild pL n =>
          simp only [openFileR] at h
          cases act with
          | read =>
              simp only [Prod.mk.injEq, Option.some.injEq] at h
              exact h.2.symm ▸ rfl
          | write => simp at h
          | append => simp at h
      | fileChild pL =>
          simp only [openFileR, Prod.mk.injEq, Option.some.injEq] at h
          exact h.2.symm ▸ rfl
      | noSuchEntry =>
          simp only [openFileR, Prod.mk.injEq, Option.some.injEq] at h
          exact h.2.symm ▸ rfl

/-- An erroring list dispatch leaves the state exactly as it was. -/
theorem listDirR_error {st : State} :
    ∀ (f : Nat) (r : Resolved) (p : Path) (e : Err) (st2 : State),
      listDirR f st r p = some (.error e, st2) → st2 = st := by
  intro f
  induction f with
  | zero =>
      intro r p e st2 h
      cases r with
      | link loc src => simp [listDirR] at h
      | dir loc =>
          simp only [listDirR] at h
          cases he : entryAt st loc with
          | none => rw [he] at h; exact absurd h (by simp)
          | some sn =>
              cases sn with
              | dir ch => rw [he] at h; simp at h
              | file cc => rw [he] at h; exact absurd h (by simp)
              | link s => rw [he] at h; exact absurd h (by simp)
      | file loc =>
          simp only [listDirR, Prod.mk.injEq, Option.some.injEq] at h
          exact h.2.symm ▸ rfl
      | dirChild pL n =>
          simp only [listDirR, Prod.mk.injEq, Option.some.injEq] at h
          exact h.2.symm ▸ rfl
      | fileChild pL =>
          simp only [listDirR, Prod.mk.injEq, Option.some.injEq] at h
          exact h.2.symm ▸ rfl
      | noSuchEntry =>
          simp only [listDirR, Prod.mk.injEq, Option.some.injEq] at h
          exact h.2.symm ▸ rfl
  | succ f0 ih =>
      intro r p e st2 h
      cases r with
      | link loc src =>
          simp only [listDirR] at h
          cases hsrc : resolveN f0 st src with
          | none => rw [hsrc] at h; exact absurd h (by simp)
          | some r2 =>
              rw [hsrc] at h
              exact ih r2 p e st2 h
      | dir loc =>
          simp only [listDirR] at h
          cases he : entryAt st loc with
          | none => rw [he] at h; exact absurd h (by simp)
          | some sn =>
              cases sn with
              | dir ch => rw [he] at h; simp at h
              | file cc => rw [he] at h; exact absurd h (by simp)
              | link s => rw [he] at h; exact absurd h (by simp)
      | file loc =>
          simp only [listDirR, Prod.mk.injEq, Option.some.injEq] at h
          exact h.2.symm ▸ rfl
      | dirChild pL n =>
          simp only [listDirR, Prod.mk.injEq, Option.some.injEq] at h
          exact h.2.symm ▸ rfl
      | fileChild pL =>
          simp only [listDirR, Prod.mk.injEq, Option.some.injEq] at h
          exact h.2.symm ▸ rfl
      | noSuchEntry =>
          simp only [listDirR, Prod.mk.injEq, Option.some.injEq] at h
          exact h.2.symm ▸ rfl

/-- A shallow view of one stored entry: its kind, its contents when it
is a file, its target when it is a link — but not its children.  The
family of all shallow entries determines every directory's child-name
mapping, every file's contents and every link's target. -/
inductive ShallowEntry : Type where
  | dirE
  | fileE (c : List Nat)
  | linkE (src : Path)
deriving DecidableEq

/-- Shallow projection. -/
def shallowOf : SNode → ShallowEntry
  | .dir _ => .dirE
  | .file c => .fileE c
  | .link src => .linkE src

/-- The shallow entry at a location of the state. -/
def shallowAt (st : State) (q : Loc) : Option ShallowEntry :=
  (entryAt st q).map shallowOf

theorem getNode_eraseNode_shallow :
    ∀ (loc : Loc) (s w : SNode), wfN s = true →
      getNode s loc = some w →
      ((∃ cc, w = .file cc) ∨ (∃ ss, w = .link ss)) → loc ≠ [] →
      ∀ q : Loc, (getNode (eraseNode s loc) q).map shallowOf =
        if q = loc then none else (getNode s q).map shallowOf := by
  intro loc
  induction loc with
  | nil => intro s w hwf hg hw hne; exact absurd rfl hne
  | cons n rest ih =>
      intro s w hwf hg hw hne q
      cases s with
      | dir ch =>
          simp only [getNode] at hg
          cases hlk : lookupChild ch n with
          | none => rw [hlk] at hg; exact absurd hg (by simp)
          | some sn =>
              rw [hlk] at hg
              have hwfch : wfL ch = true := by simpa [wfN] using hwf
              have hwfsn : wfN sn = true := wfN_of_lookupChild hwfch hlk
              cases rest with
              | nil =>
                  have hsnw : sn = w := by simpa [getNode] using hg
                  subst hsnw
                  simp only [eraseNode]
                  cases q with
                  | nil =>
                      rw [if_neg (by simp : ([] : Loc) ≠ [n])]
                      rfl
                  | cons m qr =>
                      by_cases hm : n = m
                      · subst hm
                        have hrm : lookupChild (removeChild ch n) n =
                            none := by
                          rw [lookupChild_removeChild ch n n hwfch]
                          rw [if_pos rfl]
                        have hL : getNode
                            (SNode.dir (removeChild ch n)) (n :: qr) =
                            none := by
                          simp only [getNode, hrm]
                        rw [hL]
                        by_cases hq : qr = []
                        · subst hq
                          rw [if_pos rfl]
                          rfl
                        · have hqne : (n :: qr) ≠ [n] := by
                            intro hcon
                            have h2 := (List.cons.injEq n qr n []).mp hcon
                            exact hq h2.2
                          rw [if_neg hqne]
                          have hR : getNode (SNode.dir ch) (n :: qr) =
                              none := by
                            simp only [getNode, hlk]
                            rcases hw with ⟨cc, rfl⟩ | ⟨ss, rfl⟩ <;>
                              cases qr with
                              | nil => exact absurd rfl hq
                              | cons z zs => rfl
                          rw [hR]
                      · have hrm : lookupChild (removeChild ch n) m =
                            lookupChild ch m := by
                          rw [lookupChild_removeChild ch n m hwfch]
                          rw [if_neg hm]
                        have hqne : (m :: qr) ≠ [n] := by
                          intro hcon
                          have h2 := (List.cons.injEq m qr n []).mp hcon
                          exact hm h2.1.symm
                        rw [if_neg hqne]
                        show (getNode (SNode.dir (removeChild ch n))
                            (m :: qr)).map shallowOf =
                          (getNode (SNode.dir ch) (m :: qr)).map shallowOf
                        simp only [getNode, hrm]
              | cons r rs =>
                  simp only [eraseNode, hlk]
                  cases q with
                  | nil =>
                      rw [if_neg (by simp : ([] : Loc) ≠ n :: r :: rs)]
                      rfl
                  | cons m qr =>
                      by_cases hm : n = m
                      · subst hm
                        have hset : lookupChild
                            (setChild ch n (eraseNode sn (r :: rs))) n =
                            some (eraseNode sn (r :: rs)) := by
                          rw [lookupChild_setChild]
                          rw [if_pos rfl]
                        have hL : getNode (SNode.dir
                            (setChild ch n (eraseNode sn (r :: rs))))
                            (n :: qr) =
                            getNode (eraseNode sn (r :: rs)) qr := by
                          simp only [getNode, hset]
                        rw [hL]
                        have hih := ih sn w hwfsn hg hw (by simp) qr
                        rw [hih]
                        have hR : getNode (SNode.dir ch) (n :: qr) =
                            getNode sn qr := by
                          simp only [getNode, hlk]
                        rw [hR]
                        by_cases hq : qr = r :: rs
                        · subst hq
                          rw [if_pos rfl, if_pos rfl]
                        · have hqne : (n :: qr) ≠ n :: r :: rs := by
                            intro hcon
                            have h2 :=
                              (List.cons.injEq n qr n (r :: rs)).mp hcon
                            exact hq h2.2
                          rw [if_neg hq, if_neg hqne]
                      · have hset : lookupChild
                            (setChild ch n (eraseNode sn (r :: rs))) m =
                            lookupChild ch m := by
                          rw [lookupChild_setChild, if_neg hm]
                        have hqne : (m :: qr) ≠ n :: r :: rs := by
                          intro hcon
                          have h2 :=
                            (List.cons.injEq m qr n (r :: rs)).mp hcon
                          exact hm h2.1.symm
                        rw [if_neg hqne]
                        show (getNode (SNode.dir
                            (setChild ch n (eraseNode sn (r :: rs))))
                            (m :: qr)).map shallowOf =
                          (getNode (SNode.dir ch) (m :: qr)).map shallowOf
                        simp only [getNode, hset]
      | file c => simp [getNode] at hg
      | link src => simp [getNode] at hg

/-- State-level erase frame: removing the file or link at a location
clears exactly that shallow entry and no other. -/
theorem shallowAt_eraseLoc {st : State} {loc : Loc} {w : SNode}
    (hwf : wfL st.children = true) (hg : entryAt st loc = some w)
    (hw : (∃ cc, w = .file cc) ∨ (∃ ss, w = .link ss)) (hne : loc ≠ []) :
    ∀ q : Loc, shallowAt (eraseLoc st loc) q =
      if q = loc then none else shallowAt st q := by
  intro q
  have hmain := getNode_eraseNode_shallow loc (.dir st.children) w
    (by simpa [wfN] using hwf) hg hw hne q
  unfold eraseLoc
  cases hpn : eraseNode (.dir st.children) loc with
  | dir ch2 =>
      rw [hpn] at hmain
      exact hmain
  | file c =>
      cases loc with
      | nil => exact absurd rfl hne
      | cons n rest =>
          cases rest with
          | nil => simp [eraseNode] at hpn
          | cons r rs =>
              simp only [eraseNode] at hpn
              cases hlk2 : lookupChild st.children n <;>
                rw [hlk2] at hpn <;> simp at hpn
  | link s =>
      cases loc with
      | nil => exact absurd rfl hne
      | cons n rest =>
          cases rest with
          | nil => simp [eraseNode] at hpn
          | cons r rs =>
              simp only [eraseNode] at hpn
              cases hlk2 : lookupChild st.children n <;>
                rw [hlk2] at hpn <;> simp at hpn

/-- The resolved values a link-free walk can pass through. -/
def linkFreeR (st : State) : Resolved → Prop
  | .dir loc => ∃ ch, entryAt st loc = some (.dir ch) ∧ linkFreeL ch = true
  | .link _ _ => False
  | .file _ => True
  | .dirChild _ _ => True
  | .fileChild _ => True
  | .noSuchEntry => True

/-- On a state with no symbolic links, resolution always terminates:
fuel equal to the path length suffices. -/
theorem resolveGo_linkFree {st : State} :
    ∀ (p : Path) (r : Resolved), linkFreeR st r →
      ∃ v, resolveGo p.length st r p = some v := by
  intro p
  induction p with
  | nil => intro r hr; exact ⟨r, by simp [resolveGo]⟩
  | cons n rest ih =>
      intro r hr
      cases r with
      | link loc src => exact absurd hr (by simp [linkFreeR])
      | dir loc =>
          obtain ⟨ch, hloc, hlf⟩ := hr
          simp only [List.length_cons, resolveGo, hloc]
          cases hlk : lookupChild ch n with
          | none => exact ih (.dirChild loc n) trivial
          | some sn =>
              cases sn with
              | dir ch2 =>
                  refine ih (.dir (loc ++ [n])) ⟨ch2, ?_, ?_⟩
                  · rw [entryAt_append_single, hloc]
                    exact hlk
                  · have := linkFreeN_of_lookupChild hlf hlk
                    simpa [linkFreeN] using this
              | file c => exact ih (.file (loc ++ [n])) trivial
              | link src =>
                  have := linkFreeN_of_lookupChild hlf hlk
                  simp [linkFreeN] at this
      | file loc => exact ih (.fileChild loc.dropLast) trivial
      | dirChild pL nm => exact ih .noSuchEntry trivial
      | fileChild pL => exact ih (.fileChild pL) trivial
      | noSuchEntry => exact ih .noSuchEntry trivial

/-- The empty filesystem: a fresh root with no children. -/
def emptyState : State := ⟨[]⟩

/-- A root holding one file named f. -/
def fileState : State := ⟨[("f", .file [])]⟩

/-- A root holding one self-referential link: loop targets loop. -/
def loopState : State := ⟨[("loop", .link ["loop"])]⟩

/-- Resolution terminates at an input (for some padding fuel; by fuel
monotonicity the result is then stable at every larger fuel). -/
def Resolves (st : State) (p : Path) : Prop :=
  ∃ f v, resolveN f st p = some v

theorem loopState_link_step :
    ∀ f : Nat,
      resolveGo f loopState (.link ["loop"] ["loop"]) ["child"] = none := by
  intro f
  induction f with
  | zero => rfl
  | succ g ih =>
      cases g with
      | zero => rfl
      | succ h =>
          show (match resolveGo (h + 1) loopState rootResolved ["loop"] with
                | none => none
                | some r2 =>
                    resolveGo (h + 1) loopState r2 ["child"]) = none
          have hres : resolveGo (h + 1) loopState rootResolved ["loop"] =
              some (.link ["loop"] ["loop"]) := by
            have : lookupChild loopState.children "loop" =
                some (.link ["loop"]) := rfl
            simpa [liftStored] using resolveN_single h this
          rw [hres]
          exact ih

theorem loopState_diverges :
    ∀ f : Nat, resolveN f loopState ["loop", "child"] = none := by
  intro f
  cases f with
  | zero => rfl
  | succ g =>
      show (resolveGo (g + 1) loopState rootResolved ["loop", "child"]) =
        none
      have hentry : entryAt loopState [] =
          some (.dir loopState.children) := rfl
      simp only [resolveGo, hentry]
      show resolveGo g loopState
          (liftStored ["loop"] (.link ["loop"])) ["child"] = none
      exact loopState_link_step g

/-- C2, counterexample: on the state holding the self-referential link
loop → loop (built by `link(loop, loop)`), resolving the path
loop/child does not terminate at any recursion budget — in the Python
original, `_State.__getitem__` recurses without bound (RecursionError)
instead of returning a node — so resolution is not total as claimed. -/
theorem c2_counterexample : ¬ Resolves loopState ["loop", "child"] := by
  intro ⟨f, v, h⟩
  rw [loopState_diverges f] at h
  exact absurd h (by simp)

/-- C2, amended: path resolution never raises — every terminating
resolution yields exactly one of the six node variants, the result is
deterministic and stable under extra recursion budget — and it does
terminate on every state containing no symbolic link (fuel equal to
the path length suffices); but on a cyclic link chain a path
descending through the cycle makes resolution recurse without bound,
as the counterexample shows, so totality holds only short of such
cycles. -/
theorem c2_amended :
    (∀ (st : State) (f g : Nat) (p : Path) (v : Resolved), f ≤ g →
      resolveN f st p = some v → resolveN g st p = some v) ∧
    (∀ (st : State) (p : Path), linkFreeL st.children = true →
      ∃ v : Resolved, resolveN p.length st p = some v) := by
  constructor
  · intro st f g p v hle h
    exact resolveN_mono hle h
  · intro st p hlf
    exact resolveGo_linkFree p rootResolved ⟨st.children, rfl, hlf⟩

/-- C2 amended, witness at concrete inputs. -/
theorem c2_amended_witness :
    resolveN 3 fileState ["f", "a"] = some (.fileChild []) ∧
    (linkFreeL fileState.children = true ∧
      ∃ v : Resolved, resolveN 2 fileState ["f", "a"] = some v) := by
  refine ⟨?_, rfl, ?_⟩
  · exact c2_amended.1 fileState 2 3 ["f", "a"] (.fileChild [])
      (by omega) (by decide)
  · exact c2_amended.2 fileState ["f", "a"] rfl

/-- C3, counterexample: on the empty filesystem the path a/b resolves
to `noSuchEntry` (multi-level absence), and `create_file(a/b)` fails
FileNotFound carrying the full path a/b — not the parent path a the
claim names (`_NoSuchEntry.create_file` raises
`FileNotFound(path)`). -/
theorem c3_counterexample :
    resolveN 2 emptyState ["a", "b"] = some .noSuchEntry ∧
    stCreateFile 2 emptyState ["a", "b"] =
      some (.error (.fileNotFound ["a", "b"]), emptyState) ∧
    Err.fileNotFound ["a", "b"] ≠
      Err.fileNotFound (parentPath ["a", "b"]) := by
  refine ⟨by decide, rfl, by decide⟩

/-- C3, amended: for every path that resolves to `noSuchEntry`,
create_file fails FileNotFound carrying the path itself (not its
parent), with the tree unchanged. -/
theorem c3_amended (f : Nat) (st : State) (p : Path)
    (h : resolveN f st p = some .noSuchEntry) :
    stCreateFile f st p = some (.error (.fileNotFound p), st) := by
  simp only [stCreateFile, h]

/-- C3 amended, witness at a concrete input. -/
theorem c3_amended_witness :
    stCreateFile 2 emptyState ["a", "b"] =
      some (.error (.fileNotFound ["a", "b"]), emptyState) :=
  c3_amended 2 emptyState ["a", "b"] (by decide)

/-- C4, counterexample: below a file, descent does not reach
`noSuchEntry`: with a root file f, the phantom at f/a is a
`fileChild`, and descending one more segment to f/a/b yields that same
`fileChild` again (`_FileChild.__getitem__` returns itself), not
`noSuchEntry` as the claim states. -/
theorem c4_counterexample :
    resolveN 2 fileState ["f", "a"] = some (.fileChild []) ∧
    resolveN 3 fileState ["f", "a", "b"] = some (.fileChild []) ∧
    some (Resolved.fileChild []) ≠ some Resolved.noSuchEntry := by
  refine ⟨by decide, by decide, by decide⟩

/-- C4, amended: descent from a `dirChild` or from `noSuchEntry`
yields `noSuchEntry` at every depth, and descent from a File or from a
`fileChild` yields the file's `fileChild` at every depth (never
`noSuchEntry`): absence propagates as "no such entry" exactly below
directory-level phantoms, while every path below a file keeps
reporting "not a directory". -/
theorem c4_amended :
    (∀ (st : State) (f : Nat) (pL : Loc) (nm : String) (p : Path),
      p ≠ [] → p.length ≤ f →
      resolveGo f st (.dirChild pL nm) p = some .noSuchEntry) ∧
    (∀ (st : State) (f : Nat) (p : Path), p.length ≤ f →
      resolveGo f st .noSuchEntry p = some .noSuchEntry) ∧
    (∀ (st : State) (f : Nat) (pL : Loc) (p : Path), p.length ≤ f →
      resolveGo f st (.fileChild pL) p = some (.fileChild pL)) ∧
    (∀ (st : State) (f : Nat) (loc : Loc) (p : Path), p ≠ [] →
      p.length ≤ f →
      resolveGo f st (.file loc) p = some (.fileChild loc.dropLast)) := by
  refine ⟨?_, ?_, ?_, ?_⟩
  · intro st f pL nm p hne hf
    exact resolveGo_dirChild pL nm p f hne hf
  · intro st f p hf
    exact resolveGo_noSuchEntry p f hf
  · intro st f pL p hf
    exact resolveGo_fileChild pL p f hf
  · intro st f loc p hne hf
    cases p with
    | nil => exact absurd rfl hne
    | cons n rest =>
        obtain ⟨f0, rfl⟩ : ∃ f0, f = f0 + 1 :=
          ⟨f - 1, by simp at hf; omega⟩
        simp only [resolveGo]
        exact resolveGo_fileChild loc.dropLast rest f0
          (by simp at hf; omega)

/-- C4 amended, witness at concrete inputs. -/
theorem c4_amended_witness :
    resolveGo 2 fileState (.dirChild [] "z") ["a", "b"] =
        some .noSuchEntry ∧
    resolveGo 2 fileState (.file ["f"]) ["a", "b"] =
      some (.fileChild []) := by
  constructor
  · exact c4_amended.1 fileState 2 [] "z" ["a", "b"] (by decide)
      (by decide)
  · have h := c4_amended.2.2.2 fileState 2 ["f"] ["a", "b"] (by decide)
      (by decide)
    simpa using h

/-- C9: the zero-segment root path behaves as an existing Directory in
every tree state: it resolves to the root Directory node, exists is
true, create_directory fails FileExists, open_file in any mode fails
IsADirectory, and remove_file fails PermissionError, each failure
leaving the tree unchanged. -/
theorem c9_root_ops (st : State) (f : Nat) (m : Mode) :
    resolveN f st [] = some rootResolved ∧
    stExists f st [] = some true ∧
    stCreateDir f st [] = some (.error (.fileExists []), st) ∧
    stOpenFile f st [] m = some (.error (.isADirectory []), st) ∧
    stRemoveFile f st [] = some (.error (.permissionError []), st) := by
  have hres : resolveN f st [] = some rootResolved := by
    cases f <;> simp [resolveN, resolveGo, rootResolved]
  refine ⟨hres, ?_, ?_, ?_, ?_⟩
  · simp only [stExists, hres]
    cases f <;> rfl
  · simp only [stCreateDir, hres]
    rfl
  · simp only [stOpenFile, hres]
    cases f <;> rfl
  · simp only [stRemoveFile, hres]
    rfl

theorem stCreateFile_error {f : Nat} {st : State} {p : Path} {e : Err}
    {st2 : State} (h : stCreateFile f st p = some (.error e, st2)) :
    st2 = st := by
  simp only [stCreateFile] at h
  cases hres : resolveN f st p with
  | none => rw [hres] at h; exact absurd h (by simp)
  | some r =>
      rw [hres] at h
      cases r <;> simp at h <;> exact h.2.symm

theorem stOpenFile_error {f : Nat} {st : State} {p : Path} {m : Mode}
    {e : Err} {st2 : State}
    (h : stOpenFile f st p m = some (.error e, st2)) : st2 = st := by
  simp only [stOpenFile] at h
  cases hres : resolveN f st p with
  | none => rw [hres] at h; exact absurd h (by simp)
  | some r =>
      rw [hres] at h
      exact openFileR_error f r p m e st2 h

theorem stOpenFileStr_error {f : Nat} {st : State} {p : Path} {m : String}
    {e : Err} {st2 : State}
    (h : stOpenFileStr f st p m = some (.error e, st2)) : st2 = st := by
  simp only [stOpenFileStr] at h
  cases hpm : parseMode m with
  | error e0 =>
      rw [hpm] at h
      simp at h
      exact h.2.symm
  | ok mode =>
      rw [hpm] at h
      exact stOpenFile_error h

theorem stRemoveFile_error {f : Nat} {st : State} {p : Path} {e : Err}
    {st2 : State} (h : stRemoveFile f st p = some (.error e, st2)) :
    st2 = st := by
  simp only [stRemoveFile] at h
  cases hres : resolveN f st p with
  | none => rw [hres] at h; exact absurd h (by simp)
  | some r =>
      rw [hres] at h
      cases r <;> simp at h <;> exact h.2.symm

theorem stCreateDir_error {f : Nat} {st : State} {p : Path} {e : Err}
    {st2 : State} (h : stCreateDir f st p = some (.error e, st2)) :
    st2 = st := by
  simp only [stCreateDir] at h
  cases hres : resolveN f st p with
  | none => rw [hres] at h; exact absurd h (by simp)
  | some r =>
      rw [hres] at h
      cases r <;> simp at h <;> exact h.2.symm

theorem stListDir_error {f : Nat} {st : State} {p : Path} {e : Err}
    {st2 : State} (h : stListDir f st p = some (.error e, st2)) :
    st2 = st := by
  simp only [stListDir] at h
  cases hres : resolveN f st p with
  | none => rw [hres] at h; exact absurd h (by simp)
  | some r =>
      rw [hres] at h
      exact listDirR_error f r p e st2 h

theorem stRemoveEmptyDir_error {f : Nat} {st : State} {p : Path} {e : Err}
    {st2 : State} (h : stRemoveEmptyDir f st p = some (.error e, st2)) :
    st2 = st := by
  cases hres : resolveN f st p with
  | none => simp [stRemoveEmptyDir, hres] at h
  | some r =>
      cases r with
      | dir loc =>
          simp only [stRemoveEmptyDir, hres] at h
          cases he : entryAt st loc with
          | none => rw [he] at h; exact absurd h (by simp)
          | some sn =>
              rw [he] at h
              cases sn with
              | dir ch =>
                  cases ch with
                  | nil => simp at h
                  | cons kv rest => simp at h; exact h.2.symm
              | file c => exact absurd h (by simp)
              | link s => exact absurd h (by simp)
      | file loc =>
          simp [stRemoveEmptyDir, hres] at h
          exact h.2.symm
      | link loc src =>
          simp [stRemoveEmptyDir, hres] at h
          exact h.2.symm
      | dirChild pL n =>
          simp [stRemoveEmptyDir, hres] at h
          exact h.2.symm
      | fileChild pL =>
          simp [stRemoveEmptyDir, hres] at h
          exact h.2.symm
      | noSuchEntry =>
          simp [stRemoveEmptyDir, hres] at h
          exact h.2.symm

theorem stLink_error {f : Nat} {st : State} {src dst : Path} {e : Err}
    {st2 : State} (h : stLink f st src dst = some (.error e, st2)) :
    st2 = st := by
  simp only [stLink] at h
  cases hres : resolveN f st dst with
  | none => rw [hres] at h; exact absurd h (by simp)
  | some r =>
      rw [hres] at h
      cases r <;> simp at h <;> exact h.2.symm

theorem stReadlink_error {f : Nat} {st : State} {p : Path} {e : Err}
    {st2 : State} (h : stReadlink f st p = some (.error e, st2)) :
    st2 = st := by
  simp only [stReadlink] at h
  cases hres : resolveN f st p with
  | none => rw [hres] at h; exact absurd h (by simp)
  | some r =>
      rw [hres] at h
      cases r <;> simp at h <;> exact h.2.symm

/-- C8: atomicity on failure — every engine operation (create_file,
open_file including raw-mode-string parsing, remove_file,
create_directory, list_directory, remove_empty_directory, link,
readlink) that returns an error returns the tree exactly as it was
before the call: the engine never partially mutates before failing. -/
theorem c8_atomic_on_error :
    (∀ (f : Nat) (st : State) (p : Path) (e : Err) (st2 : State),
      stCreateFile f st p = some (.error e, st2) → st2 = st) ∧
    (∀ (f : Nat) (st : State) (p : Path) (m : Mode) (e : Err) (st2 : State),
      stOpenFile f st p m = some (.error e, st2) → st2 = st) ∧
    (∀ (f : Nat) (st : State) (p : Path) (m : String) (e : Err)
      (st2 : State),
      stOpenFileStr f st p m = some (.error e, st2) → st2 = st) ∧
    (∀ (f : Nat) (st : State) (p : Path) (e : Err) (st2 : State),
      stRemoveFile f st p = some (.error e, st2) → st2 = st) ∧
    (∀ (f : Nat) (st : State) (p : Path) (e : Err) (st2 : State),
      stCreateDir f st p = some (.error e, st2) → st2 = st) ∧
    (∀ (f : Nat) (st : State) (p : Path) (e : Err) (st2 : State),
      stListDir f st p = some (.error e, st2) → st2 = st) ∧
    (∀ (f : Nat) (st : State) (p : Path) (e : Err) (st2 : State),
      stRemoveEmptyDir f st p = some (.error e, st2) → st2 = st) ∧
    (∀ (f : Nat) (st : State) (src dst : Path) (e : Err) (st2 : State),
      stLink f st src dst = some (.error e, st2) → st2 = st) ∧
    (∀ (f : Nat) (st : State) (p : Path) (e : Err) (st2 : State),
      stReadlink f st p = some (.error e, st2) → st2 = st) := by
  refine ⟨?_, ?_, ?_, ?_, ?_, ?_, ?_, ?_, ?_⟩
  · intro f st p e st2 h; exact stCreateFile_error h
  · intro f st p m e st2 h; exact stOpenFile_error h
  · intro f st p m e st2 h; exact stOpenFileStr_error h
  · intro f st p e st2 h; exact stRemoveFile_error h
  · intro f st p e st2 h; exact stCreateDir_error h
  · intro f st p e st2 h; exact stListDir_error h
  · intro f st p e st2 h; exact stRemoveEmptyDir_error h
  · intro f st src dst e st2 h; exact stLink_error h
  · intro f st p e st2 h; exact stReadlink_error h

/-- C8, witness: a failing create_file on the empty filesystem leaves
it untouched. -/
theorem c8_atomic_on_error_witness : emptyState = emptyState :=
  c8_atomic_on_error.1 2 emptyState ["a", "b"] (.fileNotFound ["a", "b"])
    emptyState rfl

theorem entryAt_nil (st : State) :
    entryAt st [] = some (.dir st.children) := rfl

/-- C10: frame effect of removal — when a path resolves to an existing
File or Link stored at a location, remove_file succeeds by detaching
exactly that one slot: its shallow entry becomes absent, and the
shallow entry of every other location (sibling entries, every other
directory's child mapping, every other file's contents, and — for a
link — the whole target subtree) is exactly as before. -/
theorem c10_remove_frame (f : Nat) (st : State) (p : Path) (loc : Loc)
    (hwf : wfL st.children = true)
    (hres : resolveN f st p = some (.file loc) ∨
      ∃ src, resolveN f st p = some (.link loc src)) :
    stRemoveFile f st p = some (.ok (), eraseLoc st loc) ∧
    shallowAt (eraseLoc st loc) loc = none ∧
    ∀ q : Loc, q ≠ loc → shallowAt (eraseLoc st loc) q = shallowAt st q := by
  rcases hres with h | ⟨src, h⟩
  · have hval := validR_resolveGo f rootResolved p (.file loc)
      (validR_root st) h
    obtain ⟨c, hg⟩ := hval
    have hne : loc ≠ [] := by
      intro hl
      subst hl
      rw [entryAt_nil] at hg
      simp at hg
    have hsh := shallowAt_eraseLoc hwf hg (Or.inl ⟨c, rfl⟩) hne
    refine ⟨?_, ?_, ?_⟩
    · simp only [stRemoveFile, h]
    · rw [hsh loc, if_pos rfl]
    · intro q hq
      rw [hsh q, if_neg hq]
  · have hval := validR_resolveGo f rootResolved p (.link loc src)
      (validR_root st) h
    have hg : entryAt st loc = some (.link src) := hval
    have hne : loc ≠ [] := by
      intro hl
      subst hl
      rw [entryAt_nil] at hg
      simp at hg
    have hsh := shallowAt_eraseLoc hwf hg (Or.inr ⟨src, rfl⟩) hne
    refine ⟨?_, ?_, ?_⟩
    · simp only [stRemoveFile, h]
    · rw [hsh loc, if_pos rfl]
    · intro q hq
      rw [hsh q, if_neg hq]

/-- A concrete state for the removal witness: a directory d holding
two files a and b. -/
def twoFileState : State :=
  ⟨[("d", .dir [("a", .file [1]), ("b", .file [2])])]⟩

/-- C10, witness: removing d/a detaches exactly that slot and leaves
the sibling d/b's shallow entry untouched. -/
theorem c10_remove_frame_witness :
    stRemoveFile 2 twoFileState ["d", "a"] =
      some (.ok (), eraseLoc twoFileState ["d", "a"]) ∧
    shallowAt (eraseLoc twoFileState ["d", "a"]) ["d", "a"] = none ∧
    shallowAt (eraseLoc twoFileState ["d", "a"]) ["d", "b"] =
      shallowAt twoFileState ["d", "b"] := by
  have h := c10_remove_frame 2 twoFileState ["d", "a"] ["d", "a"] rfl
    (Or.inl (by decide))
  exact ⟨h.1, h.2.1, h.2.2 ["d", "b"] (by decide)⟩

theorem loc_ne_nil_of_file {st : State} {loc : Loc} {c : List Nat}
    (hg : entryAt st loc = some (.file c)) : loc ≠ [] := by
  intro hl
  subst hl
  rw [entryAt_nil] at hg
  simp at hg

/-- Opening an existing file for write truncates it and a write stores
exactly the payload's bytes; the mutation is contents-only, so every
shape — and hence resolution of every path — is preserved. -/
theorem writeVia_file {f : Nat} {st : State} {p : Path} {loc : Loc}
    {x : Payload} {rep : Bool}
    (h : resolveN f st p = some (.file loc)) (hfit : fitsB x rep = true) :
    writeVia f st p ⟨.write, rep⟩ x =
      some (.ok (putLoc (putLoc st loc (.file [])) loc
        (.file (payloadBytes x)))) ∧
    ShapeEq st (putLoc (putLoc st loc (.file [])) loc
      (.file (payloadBytes x))) ∧
    entryAt (putLoc (putLoc st loc (.file [])) loc
      (.file (payloadBytes x))) loc = some (.file (payloadBytes x)) := by
  obtain ⟨c0, hg⟩ := validR_resolveGo f rootResolved p (.file loc)
    (validR_root st) h
  have hne : loc ≠ [] := loc_ne_nil_of_file hg
  have hopen : stOpenFile f st p ⟨.write, rep⟩ =
      some (.ok (.writer loc rep), putLoc st loc (.file [])) := by
    simp only [stOpenFile, h]
    rw [openFileR_file_fuel]
    simp only [openFileR, hg]
    rfl
  have hg1 : entryAt (putLoc st loc (.file [])) loc = some (.file []) :=
    entryAt_putLoc_self hg hne
  have hw := hWrite_writer hfit hg1
  rw [List.nil_append] at hw
  refine ⟨?_, ?_, entryAt_putLoc_self hg1 hne⟩
  · simp only [writeVia, hopen, hw]
  · exact fun q =>
      ((shapeEq_putLoc_file hg) q).trans ((shapeEq_putLoc_file hg1) q)

/-- Reading a path that resolves to an existing file returns its
contents, decoded by the representation of the open. -/
theorem readVia_file {f : Nat} {st : State} {p : Path} {loc : Loc}
    {x : Payload} {rep : Bool}
    (h : resolveN f st p = some (.file loc))
    (hg : entryAt st loc = some (.file (payloadBytes x)))
    (hfit : fitsB x rep = true) : readVia f st p rep = some (.ok x) := by
  have hopen : stOpenFile f st p ⟨.read, rep⟩ =
      some (.ok (.reader (payloadBytes x) rep), st) := by
    simp only [stOpenFile, h]
    rw [openFileR_file_fuel]
    simp only [openFileR, hg]
    rfl
  simp only [readVia, hopen, hRead_reader_fits hfit]

/-- Opening an existing file for append preserves its contents and a
write extends them at the end. -/
theorem appendVia_file {f : Nat} {st : State} {p : Path} {loc : Loc}
    {c : List Nat} {x : Payload} {rep : Bool}
    (h : resolveN f st p = some (.file loc))
    (hg : entryAt st loc = some (.file c)) (hfit : fitsB x rep = true) :
    writeVia f st p ⟨.append, rep⟩ x =
      some (.ok (putLoc st loc (.file (c ++ payloadBytes x)))) ∧
    entryAt (putLoc st loc (.file (c ++ payloadBytes x))) loc =
      some (.file (c ++ payloadBytes x)) := by
  have hne : loc ≠ [] := loc_ne_nil_of_file hg
  have hopen : stOpenFile f st p ⟨.append, rep⟩ =
      some (.ok (.writer loc rep), st) := by
    simp only [stOpenFile, h]
    rw [openFileR_file_fuel]
    simp only [openFileR, hg]
    rfl
  refine ⟨?_, entryAt_putLoc_self hg hne⟩
  simp only [writeVia, hopen, hWrite_writer hfit hg]

/-- Opening a creatable slot (a link-free walk ending in `dirChild`)
for write creates the file and a write stores the payload's bytes; the
link-free walk afterwards finds the new file at the walked path. -/
theorem writeVia_create {f : Nat} {st : State} {p : Path} {L : Loc}
    {n : String} {x : Payload} {rep : Bool}
    (hpl : plainResolve st p = some (.dirChild L n)) (hf : p.length ≤ f)
    (hfit : fitsB x rep = true) :
    ∃ st2 : State, writeVia f st p ⟨.write, rep⟩ x = some (.ok st2) ∧
      plainResolve st2 p = some (.file p) ∧
      entryAt st2 p = some (.file (payloadBytes x)) := by
  obtain ⟨hne, hLn⟩ := plainGo_dirChild_loc p (.dir st.children) [] L n hpl
  have hLn2 : L ++ [n] = p := by simpa using hLn
  have hres : resolveN f st p = some (.dirChild L n) :=
    resolveN_of_plainResolve hpl hf
  obtain ⟨ch, hpar⟩ := validR_resolveGo f rootResolved p (.dirChild L n)
    (validR_root st) hres
  have hopen : stOpenFile f st p ⟨.write, rep⟩ =
      some (.ok (.writer p rep), putLoc st p (.file [])) := by
    simp only [stOpenFile, hres]
    cases f with
    | zero => simp only [openFileR, hLn2]
    | succ f0 => simp only [openFileR, hLn2]
  have hg1 : entryAt (putLoc st p (.file [])) p = some (.file []) := by
    have h2 := entryAt_putLoc_insert (n := n) (v := .file []) hpar
    rw [hLn2] at h2
    exact h2
  have hpl1 : plainResolve (putLoc st p (.file [])) p =
      some (.file p) :=
    plainResolve_putLoc_file hne (Or.inl ⟨L, n, hpl⟩)
  have hw := hWrite_writer hfit hg1
  rw [List.nil_append] at hw
  refine ⟨putLoc (putLoc st p (.file [])) p (.file (payloadBytes x)),
    ?_, ?_, ?_⟩
  · simp only [writeVia, hopen, hw]
  · exact plainResolve_putLoc_file hne (Or.inr ⟨p, hpl1⟩)
  · exact entryAt_putLoc_self hg1 hne

theorem loopState_open_diverges (m : Mode) :
    ∀ f : Nat,
      openFileR f loopState (.link ["loop"] ["loop"]) ["loop"] m = none := by
  intro f
  induction f with
  | zero => rfl
  | succ g ih =>
      show (match resolveN g loopState ["loop"] with
            | none => none
            | some r => openFileR g loopState r ["loop"] m) = none
      cases g with
      | zero => rfl
      | succ h =>
          have hres : resolveN (h + 1) loopState ["loop"] =
              some (.link ["loop"] ["loop"]) := by
            have hlk : lookupChild loopState.children "loop" =
                some (.link ["loop"]) := rfl
            simpa [liftStored] using resolveN_single h hlk
          rw [hres]
          exact ih

/-- C5, counterexample: the self-referential link loop → loop sits
directly under the root — an existing directory — yet opening the
path loop for write completes at no recursion budget (in the Python
original it recurses without bound through
`_Link.open_file → _entry_at_source`), so the write/read round trip
does not hold for every path under an existing directory. -/
theorem c5_counterexample :
    resolveN 1 loopState [] = some rootResolved ∧
    ¬ ∃ (f : Nat) (st2 : State),
      writeVia f loopState ["loop"] ⟨.write, false⟩ (.bytes [1]) =
        some (.ok st2) := by
  constructor
  · rfl
  · intro ⟨f, st2, h⟩
    have hnone : writeVia f loopState ["loop"] ⟨.write, false⟩
        (.bytes [1]) = none := by
      cases f with
      | zero => rfl
      | succ g =>
          have hres : resolveN (g + 1) loopState ["loop"] =
              some (.link ["loop"] ["loop"]) := by
            have hlk : lookupChild loopState.children "loop" =
                some (.link ["loop"]) := rfl
            simpa [liftStored] using resolveN_single g hlk
          simp only [writeVia, stOpenFile, hres,
            loopState_open_diverges ⟨.write, false⟩ (g + 1)]
    rw [hnone] at h
    exact absurd h (by simp)

/-- C5, amended: the write-then-read round trip holds (a) for every
path resolving to an existing file — even through arbitrary link
chains — because truncating and writing are contents-only mutations
that no resolution can observe, and (b) for every creatable path
reached by a link-free walk, where the write creates the file and the
walk then finds it; payloads round-trip exactly, bytes in binary mode
and any string (multi-byte characters included) in text mode.  Paths
whose dereference enters a link cycle are excluded: there the write
itself never completes, as the counterexample shows. -/
theorem c5_amended :
    (∀ (f : Nat) (st : State) (p : Path) (loc : Loc) (x : Payload)
      (rep : Bool), resolveN f st p = some (.file loc) →
      fitsB x rep = true →
      ∃ st2 : State, writeVia f st p ⟨.write, rep⟩ x = some (.ok st2) ∧
        readVia f st2 p rep = some (.ok x)) ∧
    (∀ (f : Nat) (st : State) (p : Path) (L : Loc) (n : String)
      (x : Payload) (rep : Bool),
      plainResolve st p = some (.dirChild L n) → p.length ≤ f →
      fitsB x rep = true →
      ∃ st2 : State, writeVia f st p ⟨.write, rep⟩ x = some (.ok st2) ∧
        readVia f st2 p rep = some (.ok x)) := by
  constructor
  · intro f st p loc x rep h hfit
    obtain ⟨hw, hse, hg2⟩ := writeVia_file h hfit
    refine ⟨_, hw, ?_⟩
    have hres2 : resolveN f
        (putLoc (putLoc st loc (.file [])) loc (.file (payloadBytes x)))
        p = some (.file loc) := by
      show resolveGo f _ rootResolved p = _
      rw [← resolveGo_shapeEq hse f rootResolved p]
      exact h
    exact readVia_file hres2 hg2 hfit
  · intro f st p L n x rep hpl hf hfit
    obtain ⟨st2, hw, hpl2, hg2⟩ := writeVia_create hpl hf hfit
    refine ⟨st2, hw, ?_⟩
    have hres2 : resolveN f st2 p = some (.file p) :=
      resolveN_of_plainResolve hpl2 hf
    exact readVia_file hres2 hg2 hfit

/-- C5 amended, witness: a binary round trip over an existing file and
a text round trip (with multi-byte characters) over a created file. -/
theorem c5_amended_witness :
    (∃ st2 : State,
      writeVia 2 fileState ["f"] ⟨.write, false⟩ (.bytes [7]) =
        some (.ok st2) ∧
      readVia 2 st2 ["f"] false = some (.ok (.bytes [7]))) ∧
    (∃ st2 : State,
      writeVia 2 emptyState ["x"] ⟨.write, true⟩ (.text "héλ𝄞") =
        some (.ok st2) ∧
      readVia 2 st2 ["x"] true = some (.ok (.text "héλ𝄞"))) := by
  constructor
  · exact c5_amended.1 2 fileState ["f"] ["f"] (.bytes [7]) false
      (by decide) rfl
  · exact c5_amended.2 2 emptyState ["x"] [] "x" (.text "héλ𝄞") true
      (by decide) (by decide) rfl

/-- C6: append composition — writing x in write mode then y in append
mode leaves the file's raw contents equal to the concatenation of the
two payloads' byte encodings, for every combination of binary/text
representation chosen independently for the two opens; this holds for
every path naming an existing file (through any link chain) and for
every creatable path reached by a link-free walk (where the first
write creates the file). -/
theorem c6_append_composition :
    (∀ (f : Nat) (st : State) (p : Path) (loc : Loc) (x y : Payload)
      (rep1 rep2 : Bool), resolveN f st p = some (.file loc) →
      fitsB x rep1 = true → fitsB y rep2 = true →
      ∃ st2 st3 : State,
        writeVia f st p ⟨.write, rep1⟩ x = some (.ok st2) ∧
        writeVia f st2 p ⟨.append, rep2⟩ y = some (.ok st3) ∧
        entryAt st3 loc =
          some (.file (payloadBytes x ++ payloadBytes y))) ∧
    (∀ (f : Nat) (st : State) (p : Path) (L : Loc) (n : String)
      (x y : Payload) (rep1 rep2 : Bool),
      plainResolve st p = some (.dirChild L n) → p.length ≤ f →
      fitsB x rep1 = true → fitsB y rep2 = true →
      ∃ st2 st3 : State,
        writeVia f st p ⟨.write, rep1⟩ x = some (.ok st2) ∧
        writeVia f st2 p ⟨.append, rep2⟩ y = some (.ok st3) ∧
        entryAt st3 p =
          some (.file (payloadBytes x ++ payloadBytes y))) := by
  constructor
  · intro f st p loc x y rep1 rep2 h hfx hfy
    obtain ⟨hw, hse, hg2⟩ := writeVia_file h hfx
    have hres2 : resolveN f
        (putLoc (putLoc st loc (.file [])) loc (.file (payloadBytes x)))
        p = some (.file loc) := by
      show resolveGo f _ rootResolved p = _
      rw [← resolveGo_shapeEq hse f rootResolved p]
      exact h
    obtain ⟨ha, hg3⟩ := appendVia_file hres2 hg2 hfy
    exact ⟨_, _, hw, ha, hg3⟩
  · intro f st p L n x y rep1 rep2 hpl hf hfx hfy
    obtain ⟨st2, hw, hpl2, hg2⟩ := writeVia_create hpl hf hfx
    have hres2 : resolveN f st2 p = some (.file p) :=
      resolveN_of_plainResolve hpl2 hf
    obtain ⟨ha, hg3⟩ := appendVia_file hres2 hg2 hfy
    exact ⟨st2, _, hw, ha, hg3⟩

/-- C6, witness: mixed text-then-binary append over a created file. -/
theorem c6_append_composition_witness :
    ∃ st2 st3 : State,
      writeVia 2 emptyState ["x"] ⟨.write, true⟩ (.text "ab") =
        some (.ok st2) ∧
      writeVia 2 st2 ["x"] ⟨.append, false⟩ (.bytes [1, 2]) =
        some (.ok st3) ∧
      entryAt st3 ["x"] =
        some (.file (payloadBytes (.text "ab") ++
          payloadBytes (.bytes [1, 2]))) :=
  c6_append_composition.2 2 emptyState ["x"] [] "x" (.text "ab")
    (.bytes [1, 2]) true false (by decide) (by decide) rfl rfl

theorem chainState_entry_file (links : List String) (fname : String)
    (c : List Nat) :
    entryAt (chainState links fname c) [fname] = some (.file c) := by
  show getNode (.dir (chainState links fname c).children) [fname] =
    some (.file c)
  simp only [getNode, chainState_lookup_file]

theorem chainState_put (links : List String) (fname : String)
    (c v : List Nat) :
    putLoc (chainState links fname c) [fname] (.file v) =
      chainState links fname v := by
  simp [putLoc, putNode, chainState, setChild]

/-- Opening the head of the chain, with enough fuel, behaves exactly
like dispatching open on the final file. -/
theorem chain_open_head {links : List String} {fname : String}
    {c : List Nat} (hne : links ≠ []) (hnd : (fname :: links).Nodup) :
    ∃ F : Nat, ∀ m : Mode,
      stOpenFile F (chainState links fname c) [links.headD fname] m =
        openFileR 0 (chainState links fname c) (.file [fname])
          [links.headD fname] m := by
  cases links with
  | nil => exact absurd rfl hne
  | cons hd tl =>
      have hlk : lookupChild (chainState (hd :: tl) fname c).children hd =
          some (.link [tl.headD fname]) :=
        chainState_lookup_link c (List.suffix_refl (hd :: tl)) hnd
      obtain ⟨f0, hf0⟩ := chain_deref (c := c) hnd tl
        (List.suffix_cons hd tl)
      refine ⟨f0 + 1, ?_⟩
      intro m
      have hres : resolveN (f0 + 1) (chainState (hd :: tl) fname c)
          [hd] = some (.link [hd] [tl.headD fname]) := by
        simpa [liftStored] using resolveN_single f0 hlk
      show stOpenFile (f0 + 1) (chainState (hd :: tl) fname c)
          [(hd :: tl).headD fname] m = _
      simp only [List.headD, stOpenFile, hres]
      exact hf0 f0 (le_refl f0) [hd] [hd] m

/-- C7: link chains — for every chain of distinct links (the first
targeting the second, ..., the last targeting a file), opening the
head for read yields the final file's contents; opening it for write
operates on the final file's buffer (the write is visible reading the
file itself, and a write to the file is visible reading through the
head); and readlink on any chain link returns only that link's
immediately stored target, never the fully resolved path. -/
theorem c7_link_chain (links : List String) (fname : String)
    (c x : List Nat) (hne : links ≠ []) (hnd : (fname :: links).Nodup) :
    (∃ f : Nat,
      readVia f (chainState links fname c) [links.headD fname] false =
        some (.ok (.bytes c))) ∧
    (∃ f : Nat,
      writeVia f (chainState links fname c) [links.headD fname]
          ⟨.write, false⟩ (.bytes x) =
        some (.ok (chainState links fname x)) ∧
      readVia 1 (chainState links fname x) [fname] false =
        some (.ok (.bytes x))) ∧
    (writeVia 1 (chainState links fname c) [fname] ⟨.write, false⟩
        (.bytes x) = some (.ok (chainState links fname x)) ∧
      ∃ f : Nat,
        readVia f (chainState links fname x) [links.headD fname] false =
          some (.ok (.bytes x))) ∧
    (∀ (n : String) (rest2 : List String), (n :: rest2) <:+ links →
      stReadlink 1 (chainState links fname c) [n] =
        some (.ok [rest2.headD fname], chainState links fname c)) := by
  have hopen0 : ∀ (cc : List Nat) (m : Mode),
      openFileR 0 (chainState links fname cc) (.file [fname])
        [links.headD fname] m =
      some (fileOpen (chainState links fname cc) [fname] cc m) := by
    intro cc m
    simp only [openFileR, chainState_entry_file]
  have hfileres : ∀ cc : List Nat,
      resolveN 1 (chainState links fname cc) [fname] =
        some (.file [fname]) := by
    intro cc
    simpa [liftStored] using
      resolveN_single 0 (chainState_lookup_file links fname cc)
  have hwrite_direct : ∀ cc : List Nat,
      writeVia 1 (chainState links fname cc) [fname] ⟨.write, false⟩
        (.bytes x) = some (.ok (chainState links fname x)) := by
    intro cc
    have hopen : stOpenFile 1 (chainState links fname cc) [fname]
        ⟨.write, false⟩ =
        some (.ok (.writer [fname] false),
          putLoc (chainState links fname cc) [fname] (.file [])) := by
      simp only [stOpenFile, hfileres cc]
      rw [openFileR_file_fuel]
      simp only [openFileR, chainState_entry_file]
      rfl
    rw [chainState_put] at hopen
    have hw : hWrite (chainState links fname []) (.writer [fname] false)
        (.bytes x) = some (chainState links fname x) := by
      simp only [hWrite, chainState_entry_file]
      rw [List.nil_append, chainState_put]
    simp only [writeVia, hopen, hw]
  have hread_direct : ∀ cc : List Nat,
      readVia 1 (chainState links fname cc) [fname] false =
        some (.ok (.bytes cc)) := by
    intro cc
    have hopen : stOpenFile 1 (chainState links fname cc) [fname]
        ⟨.read, false⟩ =
        some (.ok (.reader cc false), chainState links fname cc) := by
      simp only [stOpenFile, hfileres cc]
      rw [openFileR_file_fuel]
      simp only [openFileR, chainState_entry_file]
      rfl
    simp only [readVia, hopen, hRead]
  have hread_head : ∀ cc : List Nat,
      ∃ f : Nat,
        readVia f (chainState links fname cc) [links.headD fname] false =
          some (.ok (.bytes cc)) := by
    intro cc
    obtain ⟨F, hF⟩ := chain_open_head (c := cc) hne hnd
    refine ⟨F, ?_⟩
    have hopen : stOpenFile F (chainState links fname cc)
        [links.headD fname] ⟨.read, false⟩ =
        some (.ok (.reader cc false), chainState links fname cc) := by
      rw [hF ⟨.read, false⟩, hopen0 cc ⟨.read, false⟩]
      rfl
    simp only [readVia, hopen, hRead]
  refine ⟨hread_head c, ?_, ⟨hwrite_direct c, hread_head x⟩, ?_⟩
  · obtain ⟨F, hF⟩ := chain_open_head (c := c) hne hnd
    refine ⟨F, ?_, hread_direct x⟩
    have hopen : stOpenFile F (chainState links fname c)
        [links.headD fname] ⟨.write, false⟩ =
        some (.ok (.writer [fname] false),
          putLoc (chainState links fname c) [fname] (.file [])) := by
      rw [hF ⟨.write, false⟩, hopen0 c ⟨.write, false⟩]
      rfl
    rw [chainState_put] at hopen
    have hw : hWrite (chainState links fname []) (.writer [fname] false)
        (.bytes x) = some (chainState links fname x) := by
      simp only [hWrite, chainState_entry_file]
      rw [List.nil_append, chainState_put]
    simp only [writeVia, hopen, hw]
  · intro n rest2 hs
    have hlk := chainState_lookup_link c hs hnd
    have hres : resolveN 1 (chainState links fname c) [n] =
        some (.link [n] [rest2.headD fname]) := by
      simpa [liftStored] using resolveN_single 0 hlk
    simp only [stReadlink, hres]

/-- C7, witness: a two-link chain a → b → f over a file with contents
[9]. -/
theorem c7_link_chain_witness :
    (∃ f : Nat,
      readVia f (chainState ["a", "b"] "f" [9]) ["a"] false =
        some (.ok (.bytes [9]))) ∧
    (∃ f : Nat,
      writeVia f (chainState ["a", "b"] "f" [9]) ["a"] ⟨.write, false⟩
          (.bytes [4]) = some (.ok (chainState ["a", "b"] "f" [4])) ∧
      readVia 1 (chainState ["a", "b"] "f" [4]) ["f"] false =
        some (.ok (.bytes [4]))) ∧
    (writeVia 1 (chainState ["a", "b"] "f" [9]) ["f"] ⟨.write, false⟩
        (.bytes [4]) = some (.ok (chainState ["a", "b"] "f" [4])) ∧
      ∃ f : Nat,
        readVia f (chainState ["a", "b"] "f" [4]) ["a"] false =
          some (.ok (.bytes [4]))) ∧
    (∀ (n : String) (rest2 : List String), (n :: rest2) <:+ ["a", "b"] →
      stReadlink 1 (chainState ["a", "b"] "f" [9]) [n] =
        some (.ok [rest2.headD "f"], chainState ["a", "b"] "f" [9])) :=
  c7_link_chain ["a", "b"] "f" [9] [4] (by decide) (by decide)

theorem fsRealpath_cycle {names : List String} (hne : names ≠ [])
    {n : String} (hn : n ∈ names) (rest : List String) :
    ∃ q, fsRealpath (cycleState names) (n :: rest) =
      .error (.symbolicLoop q) := by
  obtain ⟨q, hq⟩ := chaseLinks_cycle hne maxHops n hn
  refine ⟨q, ?_⟩
  show (n :: rest).foldlM
      (fun real seg =>
        chaseLinks (cycleState names) maxHops (real ++ [seg])) [] = _
  rw [List.foldlM_cons]
  have hstep : chaseLinks (cycleState names) maxHops
      (([] : Path) ++ [n]) = .error (.symbolicLoop q) := by
    rw [List.nil_append]
    exact hq
  rw [hstep]
  rfl

/-- C1: every self- or mutually-referential link chain makes every
dereferencing operation — open in any mode, create, and realpath —
applied to a chain member or to any descendant path below it fail with
SymbolicLoop (the tree untouched) rather than recurse without
bound.  The loop bound lives in the facade of filesystems/common.py,
which is not under src/, so the facade (`fsRealpath`, `fsOpen`,
`fsCreate`) is modelled from the spec; the engine-level model, like
the Python engine itself, would recurse forever here. -/
theorem c1_symbolic_loop (names : List String) (hne : names ≠ [])
    (n : String) (hn : n ∈ names) (rest : List String) (m : Mode) :
    (∃ q, fsRealpath (cycleState names) (n :: rest) =
      .error (.symbolicLoop q)) ∧
    (∃ q, fsOpen (cycleState names) (n :: rest) m =
      some (.error (.symbolicLoop q), cycleState names)) ∧
    (∃ q, fsCreate (cycleState names) (n :: rest) =
      some (.error (.symbolicLoop q), cycleState names)) := by
  obtain ⟨q, hq⟩ := fsRealpath_cycle hne hn rest
  refine ⟨⟨q, hq⟩, ⟨q, ?_⟩, ⟨q, ?_⟩⟩
  · simp only [fsOpen, hq]
  · simp only [fsCreate, hq]

/-- C1, witness: a two-link mutual cycle one → two → one; open for
write, create, and realpath on one/child all fail SymbolicLoop. -/
theorem c1_symbolic_loop_witness :
    (∃ q, fsRealpath (cycleState ["one", "two"]) ["one", "child"] =
      .error (.symbolicLoop q)) ∧
    (∃ q, fsOpen (cycleState ["one", "two"]) ["one", "child"]
        ⟨.write, false⟩ =
      some (.error (.symbolicLoop q), cycleState ["one", "two"])) ∧
    (∃ q, fsCreate (cycleState ["one", "two"]) ["one", "child"] =
      some (.error (.symbolicLoop q), cycleState ["one", "two"])) :=
  c1_symbolic_loop ["one", "two"] (by decide) "one" (by decide)
    ["child"] ⟨.write, false⟩

end MemFS
